import Mathlib

/-!
Verification development for the yosys-slang elaboration engine.

The development shallowly embeds the parts of the frontend that the
checked properties concern:

* the IR Builder (`src/builder.cc`): eager constant folding over
  four-valued bit vectors, including the three-valued comparison
  algebra;
* the signal evaluator (`evaluate_rhs` in `slang_frontend.cc`):
  width-directed lowering of expressions into bit-vector signals over a
  growing module;
* the procedural lowerer (`slang_frontend.cc`): the blocking/nonblocking
  assignment bookkeeping, the `SwitchBuilder`, the staging map and its
  commit, and the `always_comb` process construction.

Bit vectors are lists of four-valued bits, least significant bit first,
matching the in-memory layout of `RTLIL::Const` / `RTLIL::SigSpec`.
-/

namespace YS

/-- Four-valued logic level of one bit (`RTLIL::State`). -/
inductive State where
  | S0 | S1 | Sx | Sz
  deriving DecidableEq, Repr

/-- One signal bit (`RTLIL::SigBit`): a constant level or one bit of a
wire, identified by the wire id and the bit offset. -/
inductive SigBit where
  | const : State → SigBit
  | wire : Nat → Nat → SigBit
  deriving DecidableEq, Repr

/-- A signal (`RTLIL::SigSpec`), least significant bit first. -/
abbrev SigSpec := List SigBit

/-- A constant bit vector (`RTLIL::Const`), least significant bit first. -/
abbrev Konst := List State

/-- Whether a bit refers to a wire. -/
def SigBit.isWire : SigBit → Bool
  | .wire _ _ => true
  | .const _ => false

/-- `SigSpec::is_fully_const`. -/
def fullyConst (s : SigSpec) : Bool := s.all (fun b => !b.isWire)

/-- `SigSpec::is_fully_def`. -/
def fullyDef (s : SigSpec) : Bool :=
  s.all (fun b => decide (b = .const .S0 ∨ b = .const .S1))

/-- `SigSpec::is_fully_ones`. -/
def fullyOnes (s : SigSpec) : Bool := s.all (fun b => decide (b = .const .S1))

/-- `SigSpec::is_fully_zero`. -/
def fullyZero (s : SigSpec) : Bool := s.all (fun b => decide (b = .const .S0))

/-- Whether a signal avoids the `z` level. -/
def noZ (s : SigSpec) : Bool := s.all (fun b => decide (b ≠ .const .Sz))

/-- `SigSpec::as_const`; only meaningful on fully-constant signals
(guarded by assertions in the source). -/
def asConst (s : SigSpec) : Konst :=
  s.map (fun b => match b with | .const st => st | .wire _ _ => .Sx)

/-- Constant signal from a constant vector. -/
def toSig (k : Konst) : SigSpec := k.map .const

/-- Numeric value contributed by one bit (`x`/`z` count as zero, as in
`RTLIL::Const::as_int`). -/
def State.bitVal : State → Nat
  | .S1 => 1
  | _ => 0

/-- Unsigned value of a constant vector. -/
def toNatVal : Konst → Nat
  | [] => 0
  | st :: rest => st.bitVal + 2 * toNatVal rest

/-- Signed or unsigned value of a constant vector (two's complement when
the sign bit is set). -/
def toIntVal (k : Konst) (signed : Bool) : Int :=
  if signed ∧ k.getLastD .S0 = .S1 then (toNatVal k : Int) - 2 ^ k.length
  else (toNatVal k : Int)

/-- Two's-complement encoding of an integer in `len` bits. -/
def ofIntK (v : Int) (len : Nat) : Konst :=
  (List.range len).map (fun i =>
    if (v % ((2 : Int) ^ len)).toNat.testBit i then State.S1 else State.S0)

/-- `RTLIL::Const::extend_u0`: truncate from the top, or pad with the
sign bit (when signed and non-empty) or zero. -/
def extendK (k : Konst) (len : Nat) (signed : Bool) : Konst :=
  if len ≤ k.length then k.take len
  else k ++ List.replicate (len - k.length)
    (if signed ∧ k ≠ [] then k.getLastD .S0 else .S0)

/-- `SigSpec::extend_u0`. -/
def extendSig (s : SigSpec) (len : Nat) (signed : Bool) : SigSpec :=
  if len ≤ s.length then s.take len
  else s ++ List.replicate (len - s.length)
    (if signed ∧ s ≠ [] then s.getLastD (.const .S0) else .const .S0)

/-- Whether a constant vector contains an `x` or `z` bit. -/
def hasUndef (k : Konst) : Bool := k.any (fun st => decide (st = .Sx ∨ st = .Sz))

/-- Boolean reduction of a constant vector to one four-valued level:
one if any bit is one, unknown if any bit is `x`/`z`, else zero. -/
def reduce1 (k : Konst) : State :=
  if k.any (fun st => decide (st = .S1)) then .S1
  else if hasUndef k then .Sx
  else .S0

/-- Three-valued negation on one level. -/
def State.not3 : State → State
  | .S0 => .S1
  | .S1 => .S0
  | _ => .Sx

/-- Three-valued conjunction on levels. -/
def State.and3 (a b : State) : State :=
  if a = .S0 ∨ b = .S0 then .S0
  else if a = .S1 ∧ b = .S1 then .S1
  else .Sx

/-- Three-valued disjunction on levels. -/
def State.or3 (a b : State) : State :=
  if a = .S1 ∨ b = .S1 then .S1
  else if a = .S0 ∧ b = .S0 then .S0
  else .Sx

/-- Three-valued exclusive or on levels. -/
def State.xor3 (a b : State) : State :=
  if a = .Sx ∨ a = .Sz ∨ b = .Sx ∨ b = .Sz then .Sx
  else if a = b then .S0 else .S1

/-- Three-valued exclusive nor on levels. -/
def State.xnor3 (a b : State) : State := (State.xor3 a b).not3

/-- One level zero-extended to `len` bits, as the IR's comparison and
logic folds produce their results. -/
def padBit (st : State) (len : Nat) : Konst :=
  match len with
  | 0 => []
  | n + 1 => st :: List.replicate n .S0

/-- Modelled from the spec: the downstream IR library's constant folding
is an external collaborator (only its interface is consumed); its
arithmetic folds return an all-`x` vector when any operand bit is
`x`/`z`, and the two's-complement value otherwise. -/
def constArith (f : Int → Int → Int) (a b : Konst) (s1 s2 : Bool) (len : Nat) : Konst :=
  if hasUndef a ∨ hasUndef b then List.replicate len .Sx
  else ofIntK (f (toIntVal a s1) (toIntVal b s2)) len

/-- Modelled from the spec: division-like folds of the external IR also
return all-`x` on a zero divisor. -/
def constDivOp (f : Int → Int → Int) (a b : Konst) (s1 s2 : Bool) (len : Nat) : Konst :=
  if hasUndef a ∨ hasUndef b ∨ toIntVal b s2 = 0 then List.replicate len .Sx
  else ofIntK (f (toIntVal a s1) (toIntVal b s2)) len

/-- Integer power as the external IR folds it: negative exponents give
zero except on bases of magnitude one. -/
def powInt (a b : Int) : Int :=
  if b < 0 then
    if a = 1 then 1
    else if a = -1 then (if b % 2 = 0 then 1 else -1)
    else 0
  else a ^ b.toNat

/-- Modelled from the spec: external IR comparison folds produce a
single-bit answer (or `x` when any operand bit is undefined),
zero-extended to the result width. -/
def constCmpOp (f : Int → Int → Bool) (a b : Konst) (s1 s2 : Bool) (len : Nat) : Konst :=
  if hasUndef a ∨ hasUndef b then padBit .Sx len
  else padBit (if f (toIntVal a s1) (toIntVal b s2) then .S1 else .S0) len

/-- Modelled from the spec: external IR case-equality fold, comparing
bit patterns exactly (including `x`/`z`) after width extension. -/
def constEqxOp (a b : Konst) (s1 s2 : Bool) (len : Nat) (negate : Bool) : Konst :=
  let w := max a.length b.length
  let same := extendK a w s1 = extendK b w s2
  padBit (if same ≠ negate then .S1 else .S0) len

/-- Modelled from the spec: external IR bitwise folds extend each
operand by its own signedness and combine bits three-valued. -/
def constBitwise (f : State → State → State) (a b : Konst) (s1 s2 : Bool) (len : Nat) : Konst :=
  List.zipWith f (extendK a len s1) (extendK b len s2)

/-- Bit of `a` at a possibly out-of-range index, with sign- or
zero-extension above and zero-fill below. -/
def bitAtExt (a : Konst) (signed : Bool) (i : Int) : State :=
  if i < 0 then .S0
  else if h : i.toNat < a.length then a.get ⟨i.toNat, h⟩
  else if signed then a.getLastD .S0 else .S0

/-- Modelled from the spec: external IR left-shift fold (`$shl`/`$sshl`). -/
def constShlOp (a b : Konst) (s1 s2 : Bool) (len : Nat) : Konst :=
  if hasUndef b then List.replicate len .Sx
  else (List.range len).map (fun j => bitAtExt a s1 ((j : Int) - toIntVal b s2))

/-- Modelled from the spec: external IR logical right-shift fold
(`$shr`), zero-filling from the top after extension. -/
def constShrOp (a b : Konst) (s1 s2 : Bool) (len : Nat) : Konst :=
  if hasUndef b then List.replicate len .Sx
  else
    let aE := extendK a (max a.length len) s1
    (List.range len).map (fun j => bitAtExt aE false ((j : Int) + toIntVal b s2))

/-- Modelled from the spec: external IR arithmetic right-shift fold
(`$sshr`), sign-filling when the first operand is signed. -/
def constSshrOp (a b : Konst) (s1 s2 : Bool) (len : Nat) : Konst :=
  if hasUndef b then List.replicate len .Sx
  else
    let aE := extendK a (max a.length len) s1
    (List.range len).map (fun j => bitAtExt aE s1 ((j : Int) + toIntVal b s2))

/-- Modelled from the spec: external IR `$shift` fold; a signed second
operand shifts the other way, vacated positions fill with zero (or the
sign bit above a signed first operand). -/
def constShiftOp (a b : Konst) (s1 s2 : Bool) (len : Nat) : Konst :=
  if hasUndef b then List.replicate len .Sx
  else (List.range len).map (fun j => bitAtExt a s1 ((j : Int) + toIntVal b s2))

/-- Modelled from the spec: external IR `$shiftx` fold; out-of-range
positions read as `x`. -/
def constShiftxOp (a b : Konst) (s2 : Bool) (len : Nat) : Konst :=
  if hasUndef b then List.replicate len .Sx
  else (List.range len).map (fun j =>
    let i : Int := (j : Int) + toIntVal b s2
    if i < 0 then .Sx
    else if h : i.toNat < a.length then a.get ⟨i.toNat, h⟩
    else .Sx)

/-- Modelled from the spec: external IR `$neg` fold. -/
def constNegOp (a : Konst) (s1 : Bool) (len : Nat) : Konst :=
  if hasUndef a then List.replicate len .Sx
  else ofIntK (-(toIntVal a s1)) len

/-- Modelled from the spec: external IR `$not` fold, inverting after
extension with `x`/`z` mapped to `x`. -/
def constNotOp (a : Konst) (s1 : Bool) (len : Nat) : Konst :=
  (extendK a len s1).map State.not3

/-- Modelled from the spec: external IR `$logic_not` fold. -/
def constLogicNotOp (a : Konst) (len : Nat) : Konst :=
  padBit (reduce1 a).not3 len

/-- Modelled from the spec: external IR `$logic_and` fold. -/
def constLogicAndOp (a b : Konst) (len : Nat) : Konst :=
  padBit (State.and3 (reduce1 a) (reduce1 b)) len

/-- Modelled from the spec: external IR `$logic_or` fold. -/
def constLogicOrOp (a b : Konst) (len : Nat) : Konst :=
  padBit (State.or3 (reduce1 a) (reduce1 b)) len

/-- Modelled from the spec: external IR `$reduce_or` / `$reduce_bool`
fold. -/
def constReduceOrOp (a : Konst) (len : Nat) : Konst :=
  padBit (reduce1 a) len

/-- Modelled from the spec: external IR `$reduce_and` fold. -/
def constReduceAndOp (a : Konst) (len : Nat) : Konst :=
  padBit
    (if a.any (fun st => decide (st = .S0)) then .S0
     else if hasUndef a then .Sx
     else .S1) len

/-- Modelled from the spec: external IR `$reduce_xor` fold. -/
def constReduceXorOp (a : Konst) (len : Nat) : Konst :=
  padBit
    (if hasUndef a then .Sx
     else if (a.count .S1) % 2 = 1 then .S1 else .S0) len

/-- Modelled from the spec: external IR `$reduce_xnor` fold. -/
def constReduceXnorOp (a : Konst) (len : Nat) : Konst :=
  padBit
    (if hasUndef a then .Sx
     else if (a.count .S1) % 2 = 1 then .S0 else .S1) len

/-- The binary cell kinds handled by `RTLILBuilder::Biop`. -/
inductive BiKind where
  | add | sub | mul | divfloor | div | mod | and | or | xor | xnor
  | eq | ne | nex | eqx | ge | gt | le | lt | logicAnd | logicOr
  | sshl | sshr | shl | shr | pow
  deriving DecidableEq, Repr

/-- The unary cell kinds handled by `RTLILBuilder::Unop`. -/
inductive UnKind where
  | pos | neg | logicNot | not | reduceOr | reduceAnd | reduceXor
  | reduceXnor | reduceBool
  deriving DecidableEq, Repr

/-- Modelled from the spec: dispatch to the external IR's constant fold
of one binary cell kind (`RTLIL::const_add`, `const_sub`, ...). -/
def constFoldB : BiKind → Konst → Konst → Bool → Bool → Nat → Konst
  | .add, a, b, s1, s2, len => constArith (· + ·) a b s1 s2 len
  | .sub, a, b, s1, s2, len => constArith (· - ·) a b s1 s2 len
  | .mul, a, b, s1, s2, len => constArith (· * ·) a b s1 s2 len
  | .divfloor, a, b, s1, s2, len => constDivOp Int.fdiv a b s1 s2 len
  | .div, a, b, s1, s2, len => constDivOp Int.tdiv a b s1 s2 len
  | .mod, a, b, s1, s2, len => constDivOp Int.tmod a b s1 s2 len
  | .and, a, b, s1, s2, len => constBitwise State.and3 a b s1 s2 len
  | .or, a, b, s1, s2, len => constBitwise State.or3 a b s1 s2 len
  | .xor, a, b, s1, s2, len => constBitwise State.xor3 a b s1 s2 len
  | .xnor, a, b, s1, s2, len => constBitwise State.xnor3 a b s1 s2 len
  | .eq, a, b, s1, s2, len => constCmpOp (fun x y => decide (x = y)) a b s1 s2 len
  | .ne, a, b, s1, s2, len => constCmpOp (fun x y => decide (x ≠ y)) a b s1 s2 len
  | .nex, a, b, s1, s2, len => constEqxOp a b s1 s2 len true
  | .eqx, a, b, s1, s2, len => constEqxOp a b s1 s2 len false
  | .ge, a, b, s1, s2, len => constCmpOp (fun x y => decide (x ≥ y)) a b s1 s2 len
  | .gt, a, b, s1, s2, len => constCmpOp (fun x y => decide (x > y)) a b s1 s2 len
  | .le, a, b, s1, s2, len => constCmpOp (fun x y => decide (x ≤ y)) a b s1 s2 len
  | .lt, a, b, s1, s2, len => constCmpOp (fun x y => decide (x < y)) a b s1 s2 len
  | .logicAnd, a, b, _, _, len => constLogicAndOp a b len
  | .logicOr, a, b, _, _, len => constLogicOrOp a b len
  | .sshl, a, b, s1, s2, len => constShlOp a b s1 s2 len
  | .sshr, a, b, s1, s2, len => constSshrOp a b s1 s2 len
  | .shl, a, b, s1, s2, len => constShlOp a b s1 s2 len
  | .shr, a, b, s1, s2, len => constShrOp a b s1 s2 len
  | .pow, a, b, s1, s2, len => constArith powInt a b s1 s2 len

/-- Modelled from the spec: dispatch to the external IR's constant fold
of one unary cell kind (`RTLIL::const_pos`, `const_neg`, ...). -/
def constFoldU : UnKind → Konst → Bool → Nat → Konst
  | .pos, a, s1, len => extendK a len s1
  | .neg, a, s1, len => constNegOp a s1 len
  | .logicNot, a, _, len => constLogicNotOp a len
  | .not, a, s1, len => constNotOp a s1 len
  | .reduceOr, a, _, len => constReduceOrOp a len
  | .reduceAnd, a, _, len => constReduceAndOp a len
  | .reduceXor, a, _, len => constReduceXorOp a len
  | .reduceXnor, a, _, len => constReduceXnorOp a len
  | .reduceBool, a, _, len => constReduceOrOp a len

/-- `RTLIL::Const::as_int` on an unsigned fully-constant signal
(`x`/`z` bits contribute zero). -/
def asNatConst (s : SigSpec) : Nat := toNatVal (asConst s)

/-- `as_int` with a signedness flag. -/
def asIntConst (s : SigSpec) (signed : Bool) : Int := toIntVal (asConst s) signed

/-- `SigSpec::as_bool`: any constant one bit. -/
def asBoolConst (s : SigSpec) : Bool := s.any (fun b => decide (b = .const .S1))

/-- Outcome of one IR-Builder entry point: a signal returned directly
(a fold or a pass-through), a fall-through that emits a cell and
returns its fresh output wire, or a failed `log_assert`. -/
inductive BRes where
  | val : SigSpec → BRes
  | cell : BRes
  | fatal : BRes
  deriving DecidableEq, Repr

namespace ThreeValued

/-- `ThreeValued::AND` from `builder.cc`: literals are `+1` true,
`-1` false, `0` unknown. -/
def tvAND (a b : Int) : Int :=
  if a < 0 ∨ b < 0 then -1
  else if a > 0 ∧ b > 0 then 1
  else 0

/-- `ThreeValued::NOT`. -/
def tvNOT (lit : Int) : Int := -lit

/-- `ThreeValued::OR`. -/
def tvOR (a b : Int) : Int := tvNOT (tvAND (tvNOT a) (tvNOT b))

/-- `ThreeValued::XOR`. -/
def tvXOR (a b : Int) : Int := tvOR (tvAND a (tvNOT b)) (tvAND (tvNOT a) b)

/-- `ThreeValued::XNOR`. -/
def tvXNOR (a b : Int) : Int := tvNOT (tvOR (tvAND a (tvNOT b)) (tvAND (tvNOT a) b))

/-- `ThreeValued::CARRY`. -/
def tvCARRY (a b c : Int) : Int :=
  if c > 0 then tvOR a b
  else if c < -1 then tvAND a b
  else tvOR (tvAND a b) (tvAND c (tvOR a b))

/-- `ThreeValued::convert`: a definite constant bit maps to `±1`,
everything else (including wire bits) is unknown. -/
def convert (bit : SigBit) : Int :=
  if bit = .const .S1 then 1
  else if bit = .const .S0 then -1
  else 0

end ThreeValued

open ThreeValued

/-- Whether a `Biop` kind is one of the four comparisons the
three-valued evaluation in `RTLILBuilder::Biop` applies to. -/
def isCmp : BiKind → Bool
  | .le | .lt | .gt | .ge => true
  | _ => false

/-- Bit `i` of operand `a` inside the `Biop` comparison loop:
`i < a.size() ? a[i] : (a_signed ? a.msb() : S0)`. -/
def cmpBit (a : SigSpec) (signed : Bool) (i : Nat) : SigBit :=
  if h : i < a.length then a.get ⟨i, h⟩
  else if signed then a.getLastD (.const .S0) else .const .S0

/-- The pair of literals `(al, bl)` at loop index `i`, after the swap
applied for `$gt`/`$ge`. -/
def cmpLits (op : BiKind) (a b : SigSpec) (s1 s2 : Bool) (i : Nat) : Int × Int :=
  let al := convert (cmpBit a s1 i)
  let bl := convert (cmpBit b s2 i)
  if op = .gt ∨ op = .ge then (bl, al) else (al, bl)

/-- The carry after the loop of `RTLILBuilder::Biop`: seeded with `-1`
for `$le`/`$ge` and `+1` for `$lt`/`$gt`, updated on every index except
the last. -/
def tvCarryChain (op : BiKind) (a b : SigSpec) (s1 s2 : Bool) : Int :=
  (List.range (max a.length b.length - 1)).foldl
    (fun c i =>
      let p := cmpLits op a b s1 s2 i
      tvCARRY p.1 (tvNOT p.2) c)
    (if op = .le ∨ op = .ge then -1 else 1)

/-- The final three-valued literal of the `Biop` comparison evaluation. -/
def tvFinal (op : BiKind) (a b : SigSpec) (s1 s2 : Bool) : Int :=
  let p := cmpLits op a b s1 s2 (max a.length b.length - 1)
  tvXOR (tvCarryChain op a b s1 s2) (tvXNOR p.1 p.2)

namespace Builder

/-- `RTLILBuilder::ReduceBool`. -/
def ReduceBool (a : SigSpec) : BRes :=
  if fullyConst a then .val (toSig (constReduceOrOp (asConst a) 1))
  else .cell

/-- `RTLILBuilder::Sub`. -/
def Sub (a b : SigSpec) (is_signed : Bool) : BRes :=
  if fullyOnes b then .val a
  else if fullyConst a ∧ fullyConst b then
    .val (toSig (constFoldB .sub (asConst a) (asConst b) is_signed is_signed
      (max a.length b.length + 1)))
  else .cell

/-- `RTLILBuilder::Demux`. -/
def Demux (a s : SigSpec) : BRes :=
  if 24 ≤ s.length then .fatal
  else if fullyConst s then
    let idx := asNatConst s
    .val (List.replicate (idx * a.length) (SigBit.const .S0) ++ a ++
      List.replicate ((2 ^ s.length - 1 - idx) * a.length) (SigBit.const .S0))
  else .cell

/-- `RTLILBuilder::Le`. -/
def Le (a b : SigSpec) (is_signed : Bool) : BRes :=
  if fullyConst a ∧ fullyConst b then
    .val (toSig (constFoldB .le (asConst a) (asConst b) is_signed is_signed 1))
  else .cell

/-- `RTLILBuilder::Ge`. -/
def Ge (a b : SigSpec) (is_signed : Bool) : BRes :=
  if fullyConst a ∧ fullyConst b then
    .val (toSig (constFoldB .ge (asConst a) (asConst b) is_signed is_signed 1))
  else .cell

/-- `RTLILBuilder::Lt`. -/
def Lt (a b : SigSpec) (is_signed : Bool) : BRes :=
  if fullyConst a ∧ fullyConst b then
    .val (toSig (constFoldB .lt (asConst a) (asConst b) is_signed is_signed 1))
  else .cell

/-- `RTLILBuilder::Eq`. -/
def Eq (a b : SigSpec) : BRes :=
  if fullyConst a ∧ fullyConst b then
    .val (toSig (constFoldB .eq (asConst a) (asConst b) false false 1))
  else .cell

/-- `RTLILBuilder::LogicAnd`. -/
def LogicAnd (a b : SigSpec) : BRes :=
  if fullyZero a ∨ fullyZero b then .val [SigBit.const .S0]
  else if fullyDef a ∧ b.length = 1 then .val b
  else if fullyDef b ∧ a.length = 1 then .val a
  else .cell

/-- `RTLILBuilder::LogicOr`. -/
def LogicOr (a b : SigSpec) : BRes :=
  if fullyOnes a ∨ fullyOnes b then .val [SigBit.const .S1]
  else if fullyZero a ∧ fullyZero b then .val [SigBit.const .S0]
  else .cell

/-- `RTLILBuilder::LogicNot`. -/
def LogicNot (a : SigSpec) : BRes :=
  if fullyConst a then .val (toSig (constLogicNotOp (asConst a) 1))
  else .cell

/-- `RTLILBuilder::Mux`. -/
def Mux (a b s : SigSpec) : BRes :=
  if a.length ≠ b.length ∨ s.length ≠ 1 then .fatal
  else match s.getD 0 (.const .Sx) with
  | .const .S0 => .val a
  | .const .S1 => .val b
  | _ => .cell

/-- `RTLILBuilder::Bwmux`. -/
def Bwmux (a b s : SigSpec) : BRes :=
  if a.length ≠ b.length ∨ a.length ≠ s.length then .fatal
  else if fullyConst s then
    .val ((List.range a.length).map (fun i =>
      match s.getD i (.const .Sx) with
      | .const .S0 => a.getD i (.const .Sx)
      | .const .S1 => b.getD i (.const .Sx)
      | _ => .const .Sx))
  else .cell

/-- `RTLILBuilder::Shift`. -/
def Shift (a : SigSpec) (a_signed : Bool) (b : SigSpec) (b_signed : Bool)
    (result_width : Nat) : BRes :=
  if fullyConst a ∧ fullyConst b then
    .val (toSig (constShiftOp (asConst a) (asConst b) a_signed b_signed result_width))
  else if fullyConst b ∧ b.length < 24 then
    if a = [] then .fatal
    else
      let n := asIntConst b b_signed
      .val ((List.range result_width).map (fun j =>
        let i : Int := n + (j : Int)
        if a_signed ∧ (a.length : Int) ≤ i then a.getLastD (.const .Sx)
        else if (a.length : Int) ≤ i ∨ i < 0 then .const .S0
        else a.getD i.toNat (.const .Sx)))
  else .cell

/-- `RTLILBuilder::Shiftx`. -/
def Shiftx (a s : SigSpec) (s_signed : Bool) (result_width : Nat) : BRes :=
  if fullyConst a ∧ fullyConst s then
    .val (toSig (constShiftxOp (asConst a) (asConst s) s_signed result_width))
  else .cell

/-- `RTLILBuilder::Neg`. -/
def Neg (a : SigSpec) (signed : Bool) : BRes :=
  if fullyConst a then
    .val (toSig (constNegOp (asConst a) signed (a.length + 1)))
  else .cell

/-- `RTLILBuilder::Bmux`. -/
def Bmux (a s : SigSpec) : BRes :=
  if ¬ (a.length % 2 ^ s.length = 0) ∨ ¬ (2 ^ s.length ≤ a.length) then .fatal
  else if fullyDef s then
    let stride := a.length / 2 ^ s.length
    .val ((a.drop (asNatConst s * stride)).take stride)
  else .cell

/-- `RTLILBuilder::Not`. -/
def NotG (a : SigSpec) : BRes :=
  if fullyConst a then
    .val (toSig (constNotOp (asConst a) false a.length))
  else .cell

/-- The part of `RTLILBuilder::Biop` after the three-valued comparison
evaluation: the `$logic_and` / `$logic_or` partial folds, then the cell
fall-through. -/
def biopTail (op : BiKind) (a b : SigSpec) (y_width : Nat) : BRes :=
  if op = .logicAnd ∧ (fullyZero a ∨ fullyZero b) then
    .val (List.replicate y_width (SigBit.const .S0))
  else if op = .logicOr ∧
      ((fullyConst a ∧ asBoolConst a) ∨ (fullyConst b ∧ asBoolConst b)) then
    .val (extendSig [SigBit.const .S1] y_width false)
  else .cell

/-- `RTLILBuilder::Biop`: fold fully-constant operands through the IR's
constant fold, otherwise try the three-valued comparison evaluation,
otherwise the logic shortcuts, otherwise emit a cell. -/
def Biop (op : BiKind) (a b : SigSpec) (a_signed b_signed : Bool)
    (y_width : Nat) : BRes :=
  if fullyConst a ∧ fullyConst b then
    .val (toSig (constFoldB op (asConst a) (asConst b) a_signed b_signed y_width))
  else if isCmp op ∧ a ≠ [] ∧ b ≠ [] then
    let result := tvFinal op a b a_signed b_signed
    if result < 0 then .val (List.replicate y_width (SigBit.const .S0))
    else if result > 0 then .val (extendSig [SigBit.const .S1] y_width false)
    else biopTail op a b y_width
  else biopTail op a b y_width

/-- `RTLILBuilder::Unop`. -/
def Unop (op : UnKind) (a : SigSpec) (a_signed : Bool) (y_width : Nat) : BRes :=
  if fullyConst a then
    .val (toSig (constFoldU op (asConst a) a_signed y_width))
  else .cell

end Builder

/-- Specification-side rendering of the claimed three-valued comparison
algorithm: per-bit literals over the sign- or zero-extended operands,
a carry chain folded over all but the last bit pair, and the final
exclusive-or against the last pair's equivalence. Written from the
spec's description, to be compared against the `Biop` source path. -/
def specTvCompare (op : BiKind) (a b : SigSpec) (s1 s2 : Bool) : Int :=
  let w := max a.length b.length
  let la := ((List.range w).map (fun i => cmpBit a s1 i)).map convert
  let lb := ((List.range w).map (fun i => cmpBit b s2 i)).map convert
  let pair := if op = .gt ∨ op = .ge then lb.zip la else la.zip lb
  let c0 : Int := if op = .le ∨ op = .ge then -1 else 1
  let carry := (pair.dropLast).foldl (fun c p => tvCARRY p.1 (tvNOT p.2) c) c0
  match pair.getLast? with
  | some p => tvXOR carry (tvXNOR p.1 p.2)
  | none => 0

/-! Substitution maps (`Yosys::dict<SigBit, SigBit>`): association lists
with in-place overwrite, preserving insertion order like the source's
dict. -/

/-- A wire-bit to wire-bit substitution map. -/
abbrev Subs := List (SigBit × SigBit)

/-- First binding of a key, if any. -/
def subGet : Subs → SigBit → Option SigBit
  | [], _ => none
  | p :: rest, b => if p.1 = b then some p.2 else subGet rest b

/-- Whether a key is bound. -/
def hasKey : Subs → SigBit → Bool
  | [], _ => false
  | p :: rest, b => if p.1 = b then true else hasKey rest b

/-- Bind a key, overwriting in place if present, appending otherwise
(the iteration-order behaviour of the source's dict). -/
def subSet : Subs → SigBit → SigBit → Subs
  | [], b, v => [(b, v)]
  | p :: rest, b, v => if p.1 = b then (b, v) :: rest else p :: subSet rest b v

/-- Image of one bit under a substitution map (`SigSpec::replace` on a
single bit: unchanged when unbound). -/
def subApply (σ : Subs) (b : SigBit) : SigBit := (subGet σ b).getD b

/-- `SigSpec::replace(dict)`. -/
def replaceSubs (s : SigSpec) (σ : Subs) : SigSpec := s.map (subApply σ)

/-- The keys of a substitution map, in insertion order. -/
def subKeys (σ : Subs) : SigSpec := σ.map Prod.fst

/-! Bit ordering, `SigSpec::sort`, `sort_and_unify` and chunking. -/

/-- Sort key of a bit: constants before wire bits, wire bits by id then
offset. -/
def SigBit.key : SigBit → Nat × Nat × Nat
  | .const st => (0, (match st with | .S0 => 0 | .S1 => 1 | .Sx => 2 | .Sz => 3), 0)
  | .wire w o => (1, w, o)

/-- Total comparison of bits by their sort key. -/
def bitLE (a b : SigBit) : Bool :=
  let ka := a.key
  let kb := b.key
  if ka.1 ≠ kb.1 then decide (ka.1 < kb.1)
  else if ka.2.1 ≠ kb.2.1 then decide (ka.2.1 < kb.2.1)
  else decide (ka.2.2 ≤ kb.2.2)

/-- Ordered insertion of a bit. -/
def insertBit (b : SigBit) : SigSpec → SigSpec
  | [] => [b]
  | c :: rest => if bitLE b c then b :: c :: rest else c :: insertBit b rest

/-- `SigSpec::sort` (insertion sort; the source's sort is stable and we
only ever rely on the resulting order extensionally). -/
def sortBits (s : SigSpec) : SigSpec := s.foldr insertBit []

/-- `SigSpec::sort_and_unify`: sorted with duplicates removed. -/
def sortUnify (s : SigSpec) : SigSpec := (sortBits s).dedup

/-- Whether two bits pack into the same `SigChunk`: wire bits of the
same wire at consecutive offsets, or any two constant bits. -/
def adjacentBits (a b : SigBit) : Bool :=
  match a, b with
  | .wire w1 o1, .wire w2 o2 => decide (w1 = w2 ∧ o2 = o1 + 1)
  | .const _, .const _ => true
  | _, _ => false

/-- Decomposition of a signal into its chunks (`SigSpec::chunks`). -/
def chunksOf : SigSpec → List SigSpec
  | [] => []
  | b :: rest =>
    match chunksOf rest with
    | [] => [[b]]
    | c :: cs =>
      match c with
      | [] => [b] :: cs
      | d :: _ => if adjacentBits b d then (b :: c) :: cs else [b] :: c :: cs

/-! Module state: wires are identified by their index in a list of
widths; cells record their kind and port signals. -/

/-- The unary and binary cell kinds the signal evaluator instantiates,
plus the structural helpers used by `translate_index` and the
multiplexer lowering. -/
inductive CellT where
  | unary : UnKind → CellT
  | binary : BiKind → CellT
  | mux | bmux
  deriving DecidableEq, Repr

/-- One netlist cell: kind, input ports, select port and output port
(unused ports are empty). -/
structure Cell where
  ctype : CellT
  portA : SigSpec
  portB : SigSpec
  portS : SigSpec
  portY : SigSpec
  aSigned : Bool
  bSigned : Bool
  deriving DecidableEq, Repr

/-- A module under construction: wire widths (the wire id is the list
index) and emitted cells. -/
structure Mod where
  wires : List Nat
  cells : List Cell
  deriving DecidableEq, Repr

/-- The bits of wire `id` of width `w`. -/
def wireBits (id w : Nat) : SigSpec := (List.range w).map (SigBit.wire id)

/-- `Module::addWire`: a fresh wire id of the given width. -/
def Mod.addWire (m : Mod) (w : Nat) : Mod × Nat :=
  ({ m with wires := m.wires ++ [w] }, m.wires.length)

/-- `Module::addCell` followed by port setup. -/
def Mod.addCell (m : Mod) (c : Cell) : Mod :=
  { m with cells := m.cells ++ [c] }

/-- A module helper that always emits a cell with a fresh output wire of
the given width (the `Module::Le`, `Module::Sub`, ... family, which
never folds). -/
def Mod.newCell (m : Mod) (t : CellT) (a b s : SigSpec) (w : Nat)
    (as_ bs_ : Bool) : Mod × SigSpec :=
  let (m1, id) := m.addWire w
  let y := wireBits id w
  (m1.addCell ⟨t, a, b, s, y, as_, bs_⟩, y)

/-! The SwitchBuilder (`slang_frontend.cc`), the staging map, the
staging commit, and the blocking/nonblocking bookkeeping. -/

/-- An action: a `RTLIL::SigSig`, target first. -/
abbrev Action := SigSpec × SigSpec

/-- A case rule, reduced to its action list. -/
structure CaseR where
  actions : List Action
  deriving DecidableEq, Repr

/-- The bookkeeping of one `SwitchBuilder`: the saved substitution map
and, per finished branch, the branch's case rule and its
`(update, update_map)` pair. -/
structure SwitchSt where
  save : Subs
  branches : List (CaseR × (SigSpec × SigSpec))
  deriving DecidableEq, Repr

/-- The update set a branch computes in `SwitchBuilder::branch`: the
keys of the current substitution map that are new or changed against
the snapshot, sorted. -/
def branchUpdateOf (save cur : Subs) : SigSpec :=
  sortBits ((cur.filter (fun p => decide (¬ subGet save p.1 = some p.2))).map Prod.fst)

/-- `SwitchBuilder::branch`: run the body on the current substitution
map (a snapshot-restored copy of the saved one), record the update pair,
restore the snapshot. The body is abstracted as its effect `f` on the
substitution map and the actions `acts` it left in the branch's case
rule. -/
def sbBranch (st : SwitchSt) (σ : Subs) (f : Subs → Subs)
    (acts : List Action) : SwitchSt × Subs :=
  let after := f σ
  let u := branchUpdateOf st.save after
  ({ st with branches := st.branches ++ [(⟨acts⟩, (u, replaceSubs u after))] },
   st.save)

/-- The chunk loop of `SwitchBuilder::finish`: per chunk of the unified
update signal, allocate a fresh wire, emit the parent default action
from the pre-branch substituted values, and point the substitution map
at the fresh wire bits. -/
def finishChunks : Mod → Subs → List SigSpec → Mod × Subs × List Action
  | m, σ, [] => (m, σ, [])
  | m, σ, c :: cs =>
    let w := wireBits (m.addWire c.length).2 c.length
    let r := finishChunks (m.addWire c.length).1
      ((c.zip w).foldl (fun s q => subSet s q.1 q.2) σ) cs
    (r.1, r.2.1, (w, replaceSubs c σ) :: r.2.2)

/-- The per-branch action loop of `SwitchBuilder::finish`: per chunk of
the branch's update signal, target the substituted (fresh) wires and
source the matching slice of the update map. -/
def branchActs (σf : Subs) : List SigSpec → SigSpec → List Action
  | [], _ => []
  | c :: cs, src =>
    (replaceSubs c σf, src.take c.length) :: branchActs σf cs (src.drop c.length)

/-- `SwitchBuilder::finish`: unify the branch update signals, allocate
fresh wires per chunk with parent default actions, then append each
branch's actions onto its case rule. Returns the grown module, the
updated substitution map, the parent's appended actions and the
branches' case rules. -/
def sbFinish (m : Mod) (st : SwitchSt) (σ : Subs) :
    Mod × Subs × List Action × List CaseR :=
  let union := sortUnify (st.branches.map (fun br => br.2.1)).flatten
  let r := finishChunks m σ (chunksOf union)
  (r.1, r.2.1, r.2.2,
   st.branches.map (fun br =>
     ⟨br.1.actions ++ branchActs r.2.1 (chunksOf br.2.1) br.2.2⟩))

/-- A whole switch lowering: open the builder on the current
substitution map, run every branch body in order, finish. Bodies are
abstracted as their effects on the substitution map. -/
def sbRun (m : Mod) (σ0 : Subs) (bodies : List (Subs → Subs)) :
    Mod × Subs × List Action × List CaseR :=
  let r := bodies.foldl (fun p f => sbBranch p.1 p.2 f [])
    ({ save := σ0, branches := [] }, σ0)
  sbFinish m r.1 r.2

/-- The chunk loop of `ProceduralVisitor::staging_signal`: per chunk of
the bits to create, allocate a staging wire and bind each bit to the
matching fresh wire bit. -/
def allocChunks : Mod → Subs → List SigSpec → Mod × Subs
  | m, st, [] => (m, st)
  | m, st, c :: cs =>
    let q := m.addWire c.length
    allocChunks q.1
      ((c.zip (wireBits q.2 c.length)).foldl (fun s r => subSet s r.1 r.2) st) cs

/-- `ProceduralVisitor::staging_signal`: assert all bits are wire bits,
allocate a staging wire per chunk of the not-yet-staged bits, then
return the lvalue mapped through the staging map. -/
def stagingSignal (m : Mod) (st : Subs) (lv : SigSpec) :
    Option (Mod × Subs × SigSpec) :=
  if lv.all SigBit.isWire then
    let toCreate := sortUnify (lv.filter (fun b => !(hasKey st b)))
    let p := allocChunks m st (chunksOf toCreate)
    some (p.1, p.2, replaceSubs lv p.2)
  else none

/-- A sequence of `staging_signal` calls over one procedure, collecting
the returned staged lvalues. -/
def stagingRun (m : Mod) (st : Subs) : List SigSpec →
    Option (Mod × Subs × List SigSpec)
  | [] => some (m, st, [])
  | lv :: rest =>
    match stagingSignal m st lv with
    | none => none
    | some (m1, st1, out) =>
      match stagingRun m1 st1 rest with
      | none => none
      | some (m2, st2, outs) => some (m2, st2, out :: outs)

/-- Sync rule kinds (`RTLIL::SyncType`): implicit/always, positive,
negative and any edge, level triggers. -/
inductive SyncType where
  | STa | STp | STn | STe | ST0 | ST1
  deriving DecidableEq, Repr

/-- A sync rule: kind, trigger signal, committed actions. -/
structure SyncR where
  stype : SyncType
  signal : SigSpec
  actions : List Action
  deriving DecidableEq, Repr

/-- A process: root case and sync rules. -/
structure ProcessR where
  rootCase : CaseR
  syncs : List SyncR
  deriving DecidableEq, Repr

/-- The actions `ProceduralVisitor::staging_done` appends: per chunk of
the driven (staged) bits, each sync rule gets `original ← staging` and
the root case gets `staging ← original`. -/
def stagingDoneActs (staging : Subs) : List Action × List Action :=
  let allDriven := sortUnify (subKeys staging)
  ((chunksOf allDriven).map (fun c => (c, replaceSubs c staging)),
   (chunksOf allDriven).map (fun c => (replaceSubs c staging, c)))

/-- `ProceduralVisitor::staging_done` applied to a process. -/
def stagingDone (staging : Subs) (proc : ProcessR) : ProcessR :=
  let p := stagingDoneActs staging
  { rootCase := ⟨proc.rootCase.actions ++ p.2⟩,
    syncs := proc.syncs.map (fun s => { s with actions := s.actions ++ p.1 }) }

/-- The `AlwaysComb` arm of
`ModulePopulatingVisitor::handle(ProceduralBlockSymbol)`: a fresh
process with a single implicit-event sync rule, the body visited (its
effect abstracted as the root-case contents and the staging map it
leaves), then the staging commit. -/
def handleAlwaysComb (bodyRoot : CaseR) (staging : Subs) : ProcessR :=
  let sync0 : SyncR := { stype := .STa, signal := [], actions := [] }
  stagingDone staging { rootCase := bodyRoot, syncs := [sync0] }

/-- The blocking/nonblocking bit pools of one `ProceduralVisitor`. -/
structure AssignSets where
  blocking : List SigBit
  nonblocking : List SigBit
  deriving DecidableEq, Repr

/-- `SigPool::add`: wire bits of the signal enter the pool. -/
def poolAdd (pool : List SigBit) (s : SigSpec) : List SigBit :=
  pool ++ s.filter SigBit.isWire

/-- `SigPool::check_any`: some wire bit of the signal is in the pool. -/
def poolCheckAny (pool : List SigBit) (s : SigSpec) : Bool :=
  s.any (fun b => b.isWire && decide (b ∈ pool))

/-- The blocking/nonblocking bookkeeping of one assignment in
`ProceduralVisitor::handle(ExpressionStatement)`: a bit already
assigned in the opposite mode fails the `log_assert` (lowering
terminates fatally), otherwise the lvalue joins the current mode's
pool. -/
def recordAssign (st : AssignSets) (blocking : Bool) (lv : SigSpec) :
    Option AssignSets :=
  if blocking then
    if poolCheckAny st.nonblocking lv then none
    else some { st with blocking := poolAdd st.blocking lv }
  else
    if poolCheckAny st.blocking lv then none
    else some { st with nonblocking := poolAdd st.nonblocking lv }

/-- All assignments of one procedure in order. -/
def recordAssigns (st : AssignSets) : List (Bool × SigSpec) → Option AssignSets
  | [] => some st
  | (mode, lv) :: rest =>
    match recordAssign st mode lv with
    | none => none
    | some st1 => recordAssigns st1 rest

/-! The signal evaluator: `evaluate_rhs` from `slang_frontend.cc`. The
expression type mirrors the AST shapes the evaluator dispatches on; each
node carries the width/signedness facts its lowering reads from the
slang type system (`getBitstreamWidth`, `isSigned`, translated range
bounds). -/

/-- AST unary operators (`ast::UnaryOperator`) relevant to the
`UnaryOp` case; `unsupported` stands for every operator that falls into
the `unimplemented` arm. -/
inductive UOp where
  | logicalNot | bitwiseNot | bitOr | bitAnd | bitNand | bitNor | unsupported
  deriving DecidableEq, Repr

/-- The cell kind and inversion flag `evaluate_rhs` selects for a unary
operator. -/
def uopMap : UOp → Option (UnKind × Bool)
  | .logicalNot => some (.logicNot, false)
  | .bitwiseNot => some (.not, false)
  | .bitOr => some (.reduceOr, false)
  | .bitAnd => some (.reduceAnd, false)
  | .bitNand => some (.reduceAnd, true)
  | .bitNor => some (.reduceOr, true)
  | .unsupported => none

/-- AST binary operators (`ast::BinaryOperator`) relevant to the
`BinaryOp` case. -/
inductive BOp where
  | add | subtract | multiply | divide | mod | binAnd | binOr | binXor | binXnor
  | equality | inequality | greaterThanEqual | greaterThan | lessThanEqual
  | lessThan | logicalAnd | logicalOr | logicalShiftLeft | logicalShiftRight
  | arithShiftLeft | arithShiftRight | power | unsupported
  deriving DecidableEq, Repr

/-- The cell kind `evaluate_rhs` selects for a binary operator
(logical shifts map to `$sshl`/`$sshr`, arithmetic shifts to
`$shl`/`$shr`, as in the source). -/
def bopMap : BOp → Option BiKind
  | .add => some .add
  | .subtract => some .sub
  | .multiply => some .mul
  | .divide => some .divfloor
  | .mod => some .mod
  | .binAnd => some .and
  | .binOr => some .or
  | .binXor => some .xor
  | .binXnor => some .xnor
  | .equality => some .eq
  | .inequality => some .ne
  | .greaterThanEqual => some .ge
  | .greaterThan => some .gt
  | .lessThanEqual => some .le
  | .lessThan => some .lt
  | .logicalAnd => some .logicAnd
  | .logicalOr => some .logicOr
  | .logicalShiftLeft => some .sshl
  | .logicalShiftRight => some .sshr
  | .arithShiftLeft => some .shl
  | .arithShiftRight => some .shr
  | .power => some .pow
  | .unsupported => none

/-- `slang::ConstantRange::width`. -/
def rangeWidth (l r : Int) : Nat := (l - r).natAbs + 1

/-- Expressions, with the type facts their lowering consumes. A
`preConst` node is an expression for which the AST carries a pre-folded
constant (`expr.constant`), which `evaluate_rhs` returns verbatim. -/
inductive Expr where
  | preConst (w : Nat) (k : Konst)
  | namedNet (w : Nat) (wireId : Nat)
  | namedParam (w : Nat) (k : Konst)
  | namedFormal (w : Nat) (idx : Nat)
  | unary (w : Nat) (op : UOp) (opndSigned : Bool) (opnd : Expr)
  | binary (w : Nat) (op : BOp) (lSigned rSigned : Bool) (l r : Expr)
  | conversion (toW : Nat) (fromSigned toSigned : Bool) (opnd : Expr)
  | intLit (w : Nat) (k : Konst)
  | rangeSel (rawLeft rawRight rangeW : Nat) (value : Expr)
  | elemSel (stride : Nat) (rl rr : Int) (selSigned : Bool) (value sel : Expr)
  | concat (ops : List Expr)
  | cond (c t f : Expr)
  | repl (count : Nat) (opnd : Expr)
  | member (w : Nat) (bitOffset : Nat) (value : Expr)
  | callSigned (opnd : Expr)
  | callFunc (w : Nat) (retWire : Nat) (args : List Expr)

mutual

/-- The bitstream width of an expression's type
(`expr.type->getBitstreamWidth()`), per slang's typing rules. -/
def Expr.width : Expr → Nat
  | .preConst w _ => w
  | .namedNet w _ => w
  | .namedParam w _ => w
  | .namedFormal w _ => w
  | .unary w _ _ _ => w
  | .binary w _ _ _ _ _ => w
  | .conversion toW _ _ _ => toW
  | .intLit w _ => w
  | .rangeSel rl rr rw value => (Expr.width value / rw) * (rl - rr + 1)
  | .elemSel stride _ _ _ _ _ => stride
  | .concat ops => widthList ops
  | .cond _ _ f => Expr.width f
  | .repl count opnd => count * Expr.width opnd
  | .member w _ _ => w
  | .callSigned opnd => Expr.width opnd
  | .callFunc w _ _ => w

/-- Sum of the widths of a concatenation's operands. -/
def widthList : List Expr → Nat
  | [] => 0
  | e :: rest => Expr.width e + widthList rest

end

/-- Evaluation context: the blocking-assignment substitution map, the
formal-argument bindings, and the (abstracted) staging lookup of an
inlined callee (`visitor.staging` in `evaluate_function`). -/
structure Ctx where
  subs : Subs
  args : List SigSpec
  fstage : SigBit → SigBit

/-- A 32-bit constant signal (`RTLIL::Const(int)`). -/
def konst32 (v : Int) : SigSpec := toSig (ofIntK v 32)

/-- `translate_index` from `slang_frontend.cc`: append a zero sign bit
to an unsigned index, emit bound-check cells, emit the offset
subtraction in range direction, and crop the raw index to
`ceil_log2(range.width())` bits. -/
def translateIndexE (m : Mod) (idx0 : SigSpec) (idxSigned : Bool) (l r : Int) :
    Mod × SigSpec × SigBit :=
  let idx := if idxSigned then idx0 else idx0 ++ [SigBit.const .S0]
  let p1 := m.newCell (.binary .le) idx (konst32 (max l r)) [] 1 true true
  let p2 := p1.1.newCell (.binary .ge) idx (konst32 (min l r)) [] 1 true true
  let p3 := p2.1.newCell (.binary .logicAnd) p1.2 p2.2 [] 1 false false
  let p4 :=
    if r < l then
      p3.1.newCell (.binary .sub) idx (konst32 r) [] (max idx.length 32) true true
    else
      p3.1.newCell (.binary .sub) (konst32 r) idx [] (max idx.length 32) true true
  (p4.1, extendSig p4.2 (Nat.clog 2 (rangeWidth l r)) false,
   p3.2.getD 0 (.const .Sx))

mutual

/-- `evaluate_rhs`: lower an expression to a signal over a growing
module. `none` models a fatal diagnostic or failed assertion on the
path. The final width assertion of the source is deliberately not
modelled; the width theorem establishes that it can never fire. -/
def evalRhs (m : Mod) (cx : Ctx) : Expr → Option (Mod × SigSpec)
  | .preConst _ k => some (m, toSig k)
  | .namedNet _ id =>
    match m.wires[id]? with
    | none => none
    | some wd => some (m, replaceSubs (wireBits id wd) cx.subs)
  | .namedParam _ k => some (m, toSig k)
  | .namedFormal _ idx =>
    match cx.args[idx]? with
    | none => none
    | some s => some (m, s)
  | .unary w op opndSigned opnd =>
    match evalRhs m cx opnd with
    | none => none
    | some (m1, left) =>
      match uopMap op with
      | none => none
      | some ki =>
        let p := m1.newCell (.unary ki.1) left [] [] w opndSigned false
        if ki.2 then
          let q := p.1.newCell (.unary .logicNot) p.2 [] [] 1 false false
          -- the source allocates the inverter but still returns the
          -- bare reduction output
          some (q.1, p.2)
        else some (p.1, p.2)
  | .binary w op ls rs l r =>
    match evalRhs m cx l with
    | none => none
    | some (m1, left) =>
      match evalRhs m1 cx r with
      | none => none
      | some (m2, right) =>
        match bopMap op with
        | none => none
        | some k =>
          -- fixups: $shr forces B unsigned, $sshr/$sshl force A and B
          -- unsigned
          let as_ := if k = .sshr ∨ k = .sshl then false else ls
          let bs_ := if k = .shr ∨ k = .sshr ∨ k = .sshl then false else rs
          let p := m2.newCell (.binary k) left right [] w as_ bs_
          some (p.1, p.2)
  | .conversion toW fs ts opnd =>
    match evalRhs m cx opnd with
    | none => none
    | some (m1, s) =>
      if fs = ts ∨ toW ≤ Expr.width opnd then some (m1, extendSig s toW ts)
      else none
  | .intLit _ k => some (m, toSig k)
  | .rangeSel rl rr rw value =>
    match evalRhs m cx value with
    | none => none
    | some (m1, s) =>
      if rw ≠ 0 ∧ Expr.width value % rw = 0 then
        let stride := Expr.width value / rw
        some (m1, (s.drop (rr * stride)).take (stride * (rl - rr + 1)))
      else none
  | .elemSel stride l r selSigned value sel =>
    match evalRhs m cx value with
    | none => none
    | some (m1, base) =>
      if stride ≠ 0 ∧ base.length % stride = 0 then
        match evalRhs m1 cx sel with
        | none => none
        | some (m2, idx0) =>
          let ti := translateIndexE m2 idx0 selSigned l r
          if base.length ≤ stride * 2 ^ ti.2.1.length then
            let padded := base ++
              List.replicate (stride * 2 ^ ti.2.1.length - base.length)
                (SigBit.const .Sx)
            let p := ti.1.newCell .bmux padded [] ti.2.1
              (padded.length / 2 ^ ti.2.1.length) false false
            let q := p.1.newCell .mux
              (List.replicate stride (SigBit.const .Sx)) p.2 [ti.2.2]
              stride false false
            some (q.1, q.2)
          else none
      else none
  | .concat ops => evalList m cx [] ops
  | .cond c t f =>
    -- operands evaluated in the source's textual argument order:
    -- false branch, true branch, condition
    match evalRhs m cx f with
    | none => none
    | some (m1, fs) =>
      match evalRhs m1 cx t with
      | none => none
      | some (m2, ts) =>
        match evalRhs m2 cx c with
        | none => none
        | some (m3, cs) =>
          let p := m3.newCell (.unary .reduceBool) cs [] [] 1 false false
          let q := p.1.newCell .mux fs ts p.2 fs.length false false
          some (q.1, q.2)
  | .repl count opnd =>
    match evalRhs m cx opnd with
    | none => none
    | some (m1, s) => some (m1, (List.replicate count s).flatten)
  | .member w off value =>
    match evalRhs m cx value with
    | none => none
    | some (m1, s) => some (m1, (s.drop off).take w)
  | .callSigned opnd => evalRhs m cx opnd
  | .callFunc _ rid args =>
    -- the callee's procedural traversal is abstracted: it only grows
    -- the module; the call returns the pre-created return-value wire
    -- mapped through the callee's staging map
    match evalArgs m cx args with
    | none => none
    | some m1 =>
      match m1.wires[rid]? with
      | none => none
      | some wd => some (m1, (wireBits rid wd).map cx.fstage)

/-- The concatenation loop `ret = {ret, evaluate_rhs(op)}` (each new
operand enters below the accumulated upper bits). -/
def evalList (m : Mod) (cx : Ctx) (acc : SigSpec) :
    List Expr → Option (Mod × SigSpec)
  | [] => some (m, acc)
  | e :: rest =>
    match evalRhs m cx e with
    | none => none
    | some (m1, s) => evalList m1 cx (s ++ acc) rest

/-- Evaluation of a call's arguments in order (their values bind the
callee's formals; only the module growth matters here). -/
def evalArgs (m : Mod) (cx : Ctx) : List Expr → Option Mod
  | [] => some m
  | e :: rest =>
    match evalRhs m cx e with
    | none => none
    | some (m1, _) => evalArgs m1 cx rest

end

mutual

/-- Type-consistency of an expression, mirroring what slang's checker
guarantees about the AST the evaluator consumes: stored constants match
their type's width, wires were pre-created at the type's width, formal
arguments are bound at the formal's width, select bounds lie inside the
selected range, and field accesses stay inside the parent struct. -/
def wfExpr (m : Mod) (cx : Ctx) : Expr → Bool
  | .preConst w k => decide (k.length = w)
  | .namedNet w id => decide (m.wires[id]? = some w)
  | .namedParam w k => decide (k.length = w)
  | .namedFormal w idx => decide ((cx.args[idx]?).map List.length = some w)
  | .unary _ _ _ opnd => wfExpr m cx opnd
  | .binary _ _ _ _ l r => wfExpr m cx l && wfExpr m cx r
  | .conversion _ _ _ opnd => wfExpr m cx opnd
  | .intLit w k => decide (k.length = w)
  | .rangeSel rl rr rw value =>
    wfExpr m cx value && decide (rr ≤ rl ∧ rl < rw)
  | .elemSel stride l r _ value sel =>
    wfExpr m cx value && wfExpr m cx sel &&
      decide (Expr.width value = stride * rangeWidth l r ∧ 1 ≤ stride)
  | .concat ops => wfList m cx ops
  | .cond c t f =>
    wfExpr m cx c && wfExpr m cx t && wfExpr m cx f &&
      decide (Expr.width t = Expr.width f)
  | .repl _ opnd => wfExpr m cx opnd
  | .member w off value => wfExpr m cx value && decide (off + w ≤ Expr.width value)
  | .callSigned opnd => wfExpr m cx opnd
  | .callFunc w rid args => wfList m cx args && decide (m.wires[rid]? = some w)

/-- Type-consistency of a list of operands. -/
def wfList (m : Mod) (cx : Ctx) : List Expr → Bool
  | [] => true
  | e :: rest => wfExpr m cx e && wfList m cx rest

end

/-! Supporting lemmas. -/

theorem subGet_subSet_self (σ : Subs) (b v : SigBit) :
    subGet (subSet σ b v) b = some v := by
  induction σ with
  | nil => simp [subSet, subGet]
  | cons p rest ih =>
    rw [subSet]
    by_cases hp : p.1 = b
    · simp [hp, subGet]
    · simpa [hp, subGet] using ih

theorem subGet_subSet_ne (σ : Subs) (b v c : SigBit) (hc : c ≠ b) :
    subGet (subSet σ b v) c = subGet σ c := by
  induction σ with
  | nil => simp [subSet, subGet, Ne.symm hc]
  | cons p rest ih =>
    rw [subSet]
    by_cases hp : p.1 = b
    · rw [if_pos hp, subGet, subGet, if_neg (fun h => hc h.symm),
        if_neg (fun h => hc (hp ▸ h).symm)]
    · rw [if_neg hp, subGet, subGet]
      by_cases hq : p.1 = c
      · simp [hq]
      · simp only [if_neg hq]
        exact ih

theorem hasKey_iff_isSome (σ : Subs) (b : SigBit) :
    hasKey σ b = true ↔ (subGet σ b).isSome = true := by
  induction σ with
  | nil => simp [hasKey, subGet]
  | cons p rest ih =>
    rw [hasKey, subGet]
    by_cases hp : p.1 = b
    · simp [hp]
    · simpa [hp] using ih

theorem subGet_mem (σ : Subs) (b v : SigBit) (h : subGet σ b = some v) :
    (b, v) ∈ σ := by
  induction σ with
  | nil => simp [subGet] at h
  | cons p rest ih =>
    rw [subGet] at h
    by_cases hp : p.1 = b
    · rw [if_pos hp] at h
      injection h with h2
      exact List.mem_cons.mpr (Or.inl (Prod.ext hp.symm h2.symm))
    · rw [if_neg hp] at h
      exact List.mem_cons_of_mem _ (ih h)

theorem mem_subGet (σ : Subs) (hnd : (σ.map Prod.fst).Nodup) (b v : SigBit)
    (h : (b, v) ∈ σ) : subGet σ b = some v := by
  induction σ with
  | nil => simp at h
  | cons p rest ih =>
    rw [subGet]
    rcases List.mem_cons.mp h with h1 | h1
    · cases h1
      simp
    · have hb : b ∈ rest.map Prod.fst := List.mem_map_of_mem _ h1
      have hp : p.1 ≠ b := by
        intro he
        exact (List.nodup_cons.mp hnd).1 (he ▸ hb)
      rw [if_neg hp]
      exact ih (List.nodup_cons.mp hnd).2 h1

/-- Fold of `subSet` over a list of pairs: unknown keys keep their
binding. -/
theorem setFold_notMem (ps : List (SigBit × SigBit)) (σ : Subs) (b : SigBit)
    (h : b ∉ ps.map Prod.fst) :
    subGet (ps.foldl (fun s q => subSet s q.1 q.2) σ) b = subGet σ b := by
  induction ps generalizing σ with
  | nil => rfl
  | cons q rest ih =>
    simp only [List.map_cons, List.mem_cons, not_or] at h
    rw [List.foldl_cons, ih _ h.2, subGet_subSet_ne _ _ _ _ h.1]

/-- Fold of `subSet` over pairs with distinct keys: every pair ends up
bound. -/
theorem setFold_mem (ps : List (SigBit × SigBit)) (σ : Subs) (b v : SigBit)
    (hnd : (ps.map Prod.fst).Nodup) (h : (b, v) ∈ ps) :
    subGet (ps.foldl (fun s q => subSet s q.1 q.2) σ) b = some v := by
  induction ps generalizing σ with
  | nil => simp at h
  | cons q rest ih =>
    rcases List.mem_cons.mp h with h1 | h1
    · cases h1
      rw [List.foldl_cons,
        setFold_notMem _ _ _ (List.nodup_cons.mp hnd).1,
        subGet_subSet_self]
    · exact ih _ (List.nodup_cons.mp hnd).2 h1

theorem mem_insertBit (b c : SigBit) (l : SigSpec) :
    c ∈ insertBit b l ↔ c = b ∨ c ∈ l := by
  induction l with
  | nil => simp [insertBit]
  | cons d rest ih =>
    rw [insertBit]
    split
    · simp
    · rw [List.mem_cons, List.mem_cons, ih]
      tauto

theorem mem_sortBits (b : SigBit) (l : SigSpec) :
    b ∈ sortBits l ↔ b ∈ l := by
  induction l with
  | nil => simp [sortBits]
  | cons c rest ih =>
    rw [sortBits, List.foldr_cons, mem_insertBit, List.mem_cons]
    rw [sortBits] at ih
    rw [ih]

theorem mem_sortUnify (b : SigBit) (l : SigSpec) :
    b ∈ sortUnify l ↔ b ∈ l := by
  rw [sortUnify, List.mem_dedup, mem_sortBits]

theorem nodup_sortUnify (l : SigSpec) : (sortUnify l).Nodup :=
  List.nodup_dedup _

theorem flatten_chunksOf (l : SigSpec) : (chunksOf l).flatten = l := by
  induction l with
  | nil => rfl
  | cons b rest ih =>
    rw [chunksOf]
    rcases hc : chunksOf rest with _ | ⟨c, cs⟩
    · rw [hc] at ih
      simp at ih
      simp [ih]
    · rw [hc] at ih
      rcases c with _ | ⟨d, ds⟩
      · simpa [List.flatten] using ih
      · dsimp only
        split <;> simpa using ih

theorem length_replaceSubs (l : SigSpec) (σ : Subs) :
    (replaceSubs l σ).length = l.length := List.length_map _ _

theorem getD_map_lt (f : SigBit → SigBit) (l : SigSpec) (i : Nat)
    (h : i < l.length) (d : SigBit) :
    (l.map f).getD i d = f (l.getD i d) := by
  induction l generalizing i with
  | nil => simp at h
  | cons b rest ih =>
    cases i with
    | zero => rfl
    | succ n =>
      simp only [List.map_cons, List.getD_cons_succ]
      exact ih n (by simpa using h)

theorem getD_replaceSubs (l : SigSpec) (σ : Subs) (i : Nat)
    (h : i < l.length) (d : SigBit) :
    (replaceSubs l σ).getD i d = subApply σ (l.getD i d) :=
  getD_map_lt _ _ _ h _

theorem replaceSubs_congr (l : SigSpec) (σ1 σ2 : Subs)
    (h : ∀ b ∈ l, subApply σ1 b = subApply σ2 b) :
    replaceSubs l σ1 = replaceSubs l σ2 := by
  unfold replaceSubs
  exact List.map_congr_left h

theorem replaceSubs_append (l1 l2 : SigSpec) (σ : Subs) :
    replaceSubs (l1 ++ l2) σ = replaceSubs l1 σ ++ replaceSubs l2 σ :=
  List.map_append _ _ _

theorem mem_of_getD (l : SigSpec) (i : Nat) (h : i < l.length) (d : SigBit) :
    l.getD i d ∈ l := by
  induction l generalizing i with
  | nil => simp at h
  | cons b rest ih =>
    cases i with
    | zero => simp [List.getD_cons_zero]
    | succ n =>
      rw [List.getD_cons_succ]
      exact List.mem_cons_of_mem _ (ih n (by simpa using h))

theorem exists_getD_of_mem (l : SigSpec) (b : SigBit) (h : b ∈ l) (d : SigBit) :
    ∃ i, i < l.length ∧ l.getD i d = b := by
  induction l with
  | nil => simp at h
  | cons c rest ih =>
    rcases List.mem_cons.mp h with h1 | h1
    · exact ⟨0, by simp, h1.symm⟩
    · rcases ih h1 with ⟨i, hi, hg⟩
      exact ⟨i + 1, by simpa using hi, by simpa [List.getD_cons_succ] using hg⟩

theorem poolCheckAny_false (pool : List SigBit) (s : SigSpec)
    (h : poolCheckAny pool s = false) (b : SigBit) (hb : b ∈ s)
    (hw : b.isWire = true) : b ∉ pool := by
  intro hp
  rw [poolCheckAny, List.any_eq_false] at h
  have hc := h b hb
  simp [hw, hp] at hc

theorem recordAssigns_disjoint (steps : List (Bool × SigSpec))
    (st0 st : AssignSets)
    (hd : ∀ b, ¬ (b ∈ st0.blocking ∧ b ∈ st0.nonblocking))
    (h : recordAssigns st0 steps = some st) :
    ∀ b, ¬ (b ∈ st.blocking ∧ b ∈ st.nonblocking) := by
  induction steps generalizing st0 with
  | nil =>
    rw [recordAssigns] at h
    injection h with h1
    exact h1 ▸ hd
  | cons step rest ih =>
    rw [recordAssigns] at h
    rcases hr : recordAssign st0 step.1 step.2 with _ | st1
    · rw [hr] at h
      exact absurd h (by simp)
    · rw [hr] at h
      refine ih st1 ?_ h
      rw [recordAssign] at hr
      by_cases hm : step.1 = true
      · rw [if_pos hm] at hr
        rcases hp : poolCheckAny st0.nonblocking step.2 with _ | _
        · rw [hp, if_neg (by simp)] at hr
          injection hr with hr1
          subst hr1
          intro b hb
          rcases List.mem_append.mp hb.1 with h1 | h1
          · exact hd b ⟨h1, hb.2⟩
          · have hbw := List.mem_filter.mp h1
            exact poolCheckAny_false _ _ hp b hbw.1 hbw.2 hb.2
        · rw [hp] at hr
          simp at hr
      · rw [if_neg hm] at hr
        rcases hp : poolCheckAny st0.blocking step.2 with _ | _
        · rw [hp, if_neg (by simp)] at hr
          injection hr with hr1
          subst hr1
          intro b hb
          rcases List.mem_append.mp hb.2 with h1 | h1
          · exact hd b ⟨hb.1, h1⟩
          · have hbw := List.mem_filter.mp h1
            exact poolCheckAny_false _ _ hp b hbw.1 hbw.2 hb.1
        · rw [hp] at hr
          simp at hr

/-! Claim theorems. -/

/-- Claim C2: for every signal `a` and every fully-ones constant `b`,
`RTLILBuilder::Sub(a, b, is_signed)` returns `a` unchanged and emits no
cell, regardless of signedness and of the operand widths. -/
theorem sub_allOnes_returns_a (a b : SigSpec) (is_signed : Bool)
    (h : fullyOnes b = true) : Builder.Sub a b is_signed = .val a := by
  rw [Builder.Sub, if_pos h]

/-- Witness for C2 at concrete operands. -/
theorem sub_allOnes_returns_a_wit :
    Builder.Sub [SigBit.wire 0 0] [SigBit.const .S1, SigBit.const .S1] true =
      .val [SigBit.wire 0 0] :=
  sub_allOnes_returns_a _ _ true (by decide)

/-- Claim C9: the process built for an `always_comb` block has exactly
one sync rule, of the implicit/always kind with an empty trigger
signal, and no edge-sensitive sync rules — whatever the body and the
staging commit contribute. -/
theorem alwaysComb_single_sync (bodyRoot : CaseR) (staging : Subs) :
    (handleAlwaysComb bodyRoot staging).syncs.length = 1 ∧
    ∀ s ∈ (handleAlwaysComb bodyRoot staging).syncs,
      s.stype = .STa ∧ s.signal = [] ∧
        s.stype ≠ .STp ∧ s.stype ≠ .STn ∧ s.stype ≠ .STe := by
  unfold handleAlwaysComb stagingDone
  refine ⟨rfl, ?_⟩
  intro s hs
  simp only [List.map_cons, List.map_nil, List.mem_singleton] at hs
  subst hs
  exact ⟨rfl, rfl, by simp, by simp, by simp⟩

/-- Witness for C9: with an empty body and empty staging map, the
process has exactly the one implicit sync rule, with empty trigger
signal and non-edge kind. -/
theorem alwaysComb_single_sync_wit :
    (handleAlwaysComb ⟨[]⟩ []).syncs.length = 1 ∧
    ((⟨.STa, [], []⟩ : SyncR).stype = .STa ∧
      (⟨.STa, [], []⟩ : SyncR).signal = [] ∧
      (⟨.STa, [], []⟩ : SyncR).stype ≠ .STp ∧
      (⟨.STa, [], []⟩ : SyncR).stype ≠ .STn ∧
      (⟨.STa, [], []⟩ : SyncR).stype ≠ .STe) :=
  ⟨(alwaysComb_single_sync ⟨[]⟩ []).1,
   (alwaysComb_single_sync ⟨[]⟩ []).2 ⟨.STa, [], []⟩ (by decide)⟩

/-- Counterexample for C1 as stated: `Sub` of the constants `1'b0` and
`1'b1` (signed) takes the all-ones shortcut and returns `1'b0`, while
the IR's `const_sub` at the builder's own width `max(1,1)+1 = 2` gives
`2'b01`; and `LogicAnd` of `1'b1` with `1'bz` passes `z` through while
`const_logic_and` gives `x`. -/
theorem builderFold_mismatch_cex :
    (Builder.Sub [SigBit.const .S0] [SigBit.const .S1] true =
        .val [SigBit.const .S0] ∧
      toSig (constFoldB .sub (asConst [SigBit.const .S0])
          (asConst [SigBit.const .S1]) true true
          (max (List.length [SigBit.const .S0]) (List.length [SigBit.const .S1]) + 1)) =
        [SigBit.const .S1, SigBit.const .S0] ∧
      ([SigBit.const .S0] : SigSpec) ≠ [SigBit.const .S1, SigBit.const .S0]) ∧
    (Builder.LogicAnd [SigBit.const .S1] [SigBit.const .Sz] =
        .val [SigBit.const .Sz] ∧
      toSig (constFoldB .logicAnd (asConst [SigBit.const .S1])
          (asConst [SigBit.const .Sz]) false false 1) = [SigBit.const .Sx] ∧
      ([SigBit.const .Sz] : SigSpec) ≠ [SigBit.const .Sx]) := by
  decide

/-- Claim C6: within one procedure, an assignment whose lvalue touches
a bit already assigned in the opposite mode fails the assertion
(lowering terminates fatally, modelled as `none`), and on every
successful lowering the two pools stay disjoint: no wire-bit is ever in
both `assigned_blocking` and `assigned_nonblocking`. -/
theorem no_mixed_assignment (steps : List (Bool × SigSpec)) (st : AssignSets)
    (h : recordAssigns ⟨[], []⟩ steps = some st) :
    (∀ b, ¬ (b ∈ st.blocking ∧ b ∈ st.nonblocking)) ∧
    (∀ st0 mode lv, recordAssign st0 mode lv = none ↔
      poolCheckAny (if mode then st0.nonblocking else st0.blocking) lv = true) := by
  refine ⟨recordAssigns_disjoint steps _ st (by simp) h, ?_⟩
  intro st0 mode lv
  rw [recordAssign]
  cases mode with
  | true =>
    simp only [if_pos rfl]
    rcases hp : poolCheckAny st0.nonblocking lv with _ | _ <;> simp [hp]
  | false =>
    rw [if_neg (show ¬ (false = true) by simp), if_neg (show ¬ (false = true) by simp)]
    rcases hp : poolCheckAny st0.blocking lv with _ | _ <;> simp [hp]

/-- Witness for C6: a blocking then a nonblocking assignment to
different bits succeed and leave disjoint pools. -/
theorem no_mixed_assignment_wit :
    recordAssigns ⟨[], []⟩
        [(true, [SigBit.wire 0 0]), (false, [SigBit.wire 1 0])] =
      some ⟨[SigBit.wire 0 0], [SigBit.wire 1 0]⟩ ∧
    ¬ (SigBit.wire 0 0 ∈ (⟨[SigBit.wire 0 0], [SigBit.wire 1 0]⟩ : AssignSets).blocking ∧
       SigBit.wire 0 0 ∈ (⟨[SigBit.wire 0 0], [SigBit.wire 1 0]⟩ : AssignSets).nonblocking) := by
  have hrun : recordAssigns ⟨[], []⟩
      [(true, [SigBit.wire 0 0]), (false, [SigBit.wire 1 0])] =
      some ⟨[SigBit.wire 0 0], [SigBit.wire 1 0]⟩ := by decide
  exact ⟨hrun, (no_mixed_assignment _ _ hrun).1 (SigBit.wire 0 0)⟩

theorem asConst_all_S0 (s : SigSpec) (h : fullyZero s = true) :
    ∀ st ∈ asConst s, st = State.S0 := by
  rw [fullyZero, List.all_eq_true] at h
  intro st hst
  rcases List.mem_map.mp hst with ⟨b, hb, hf⟩
  have hb0 : b = SigBit.const .S0 := of_decide_eq_true (h b hb)
  subst hb0
  exact hf.symm

theorem reduce1_of_fullyZero (s : SigSpec) (h : fullyZero s = true) :
    reduce1 (asConst s) = .S0 := by
  have hall := asConst_all_S0 s h
  have h1 : (asConst s).any (fun st => decide (st = .S1)) = false := by
    rw [List.any_eq_false]
    intro st hst
    simp [hall st hst]
  have h2 : hasUndef (asConst s) = false := by
    rw [hasUndef, List.any_eq_false]
    intro st hst
    simp [hall st hst]
  simp [reduce1, h1, h2]

theorem reduce1_of_def_nonzero (s : SigSpec) (hd : fullyDef s = true)
    (hz : ¬ fullyZero s = true) : reduce1 (asConst s) = .S1 := by
  rw [fullyDef, List.all_eq_true] at hd
  rw [fullyZero] at hz
  have hex : ∃ b ∈ s, b = SigBit.const .S1 := by
    by_contra hno
    push_neg at hno
    apply hz
    rw [List.all_eq_true]
    intro b hb
    rcases of_decide_eq_true (hd b hb) with h0 | h0
    · simp [h0]
    · exact absurd h0 (hno b hb)
  rcases hex with ⟨b, hb, rfl⟩
  have h1 : (asConst s).any (fun st => decide (st = .S1)) = true := by
    rw [List.any_eq_true]
    exact ⟨.S1, List.mem_map.mpr ⟨_, hb, rfl⟩, by simp⟩
  simp [reduce1, h1]

theorem reduce1_of_ones (s : SigSpec) (h : fullyOnes s = true) (hne : s ≠ []) :
    reduce1 (asConst s) = .S1 := by
  rw [fullyOnes, List.all_eq_true] at h
  rcases s with _ | ⟨b, rest⟩
  · exact absurd rfl hne
  · have hb1 : b = SigBit.const .S1 :=
      of_decide_eq_true (h b (List.mem_cons_self _ _))
    have h1 : (asConst (b :: rest)).any (fun st => decide (st = .S1)) = true := by
      rw [List.any_eq_true]
      exact ⟨.S1, List.mem_map.mpr ⟨b, List.mem_cons_self _ _, by simp [hb1]⟩, by simp⟩
    simp [reduce1, h1]

/-- Claim C1 (amended): on every builder entry point that wraps an IR
operator with a constant-fold counterpart, whenever both operands are
fully constant the returned fold is bitwise the IR's own constant fold
of the same operator, operand bits and signedness — except that
`Sub(a, b)` with fully-ones `b` returns `a` unchanged, and the
`LogicAnd` single-bit pass-through returns a `z` operand bit where the
const fold gives `x` (the `LogicAnd`/`LogicOr` clauses below are
accordingly restricted to `z`-free, respectively non-empty, operands).
`Mux`, `Bwmux`, `Bmux`, `Demux` and `EqWildcard` have no single IR
const-fold counterpart and are outside the claim. -/
theorem builderFold_matches_constFold (a b : SigSpec) (s1 s2 : Bool) (yw : Nat)
    (ha : fullyConst a = true) (hb : fullyConst b = true) :
    (¬ fullyOnes b = true →
      Builder.Sub a b s1 =
        .val (toSig (constFoldB .sub (asConst a) (asConst b) s1 s1
          (max a.length b.length + 1)))) ∧
    Builder.Le a b s1 =
      .val (toSig (constFoldB .le (asConst a) (asConst b) s1 s1 1)) ∧
    Builder.Ge a b s1 =
      .val (toSig (constFoldB .ge (asConst a) (asConst b) s1 s1 1)) ∧
    Builder.Lt a b s1 =
      .val (toSig (constFoldB .lt (asConst a) (asConst b) s1 s1 1)) ∧
    Builder.Eq a b =
      .val (toSig (constFoldB .eq (asConst a) (asConst b) false false 1)) ∧
    Builder.LogicNot a = .val (toSig (constLogicNotOp (asConst a) 1)) ∧
    Builder.NotG a = .val (toSig (constNotOp (asConst a) false a.length)) ∧
    Builder.Neg a s1 = .val (toSig (constNegOp (asConst a) s1 (a.length + 1))) ∧
    Builder.ReduceBool a = .val (toSig (constReduceOrOp (asConst a) 1)) ∧
    Builder.Shift a s1 b s2 yw =
      .val (toSig (constShiftOp (asConst a) (asConst b) s1 s2 yw)) ∧
    Builder.Shiftx a b s2 yw =
      .val (toSig (constShiftxOp (asConst a) (asConst b) s2 yw)) ∧
    (∀ op2 : BiKind, Builder.Biop op2 a b s1 s2 yw =
      .val (toSig (constFoldB op2 (asConst a) (asConst b) s1 s2 yw))) ∧
    (∀ op1 : UnKind, Builder.Unop op1 a s1 yw =
      .val (toSig (constFoldU op1 (asConst a) s1 yw))) ∧
    (noZ a = true → noZ b = true → ∀ rr, Builder.LogicAnd a b = .val rr →
      rr = toSig (constLogicAndOp (asConst a) (asConst b) 1)) ∧
    (a ≠ [] → b ≠ [] → ∀ rr, Builder.LogicOr a b = .val rr →
      rr = toSig (constLogicOrOp (asConst a) (asConst b) 1)) := by
  refine ⟨?_, ?_, ?_, ?_, ?_, ?_, ?_, ?_, ?_, ?_, ?_, ?_, ?_, ?_, ?_⟩
  · intro hno
    rw [Builder.Sub, if_neg hno, if_pos ⟨ha, hb⟩]
  · rw [Builder.Le, if_pos ⟨ha, hb⟩]
  · rw [Builder.Ge, if_pos ⟨ha, hb⟩]
  · rw [Builder.Lt, if_pos ⟨ha, hb⟩]
  · rw [Builder.Eq, if_pos ⟨ha, hb⟩]
  · rw [Builder.LogicNot, if_pos ha]
  · rw [Builder.NotG, if_pos ha]
  · rw [Builder.Neg, if_pos ha]
  · rw [Builder.ReduceBool, if_pos ha]
  · rw [Builder.Shift, if_pos ⟨ha, hb⟩]
  · rw [Builder.Shiftx, if_pos ⟨ha, hb⟩]
  · intro op2
    rw [Builder.Biop, if_pos ⟨ha, hb⟩]
  · intro op1
    rw [Builder.Unop, if_pos ha]
  · intro hza hzb rr hr
    rw [Builder.LogicAnd] at hr
    split_ifs at hr with h1 h2 h3
    · injection hr with hr1
      rw [← hr1]
      rcases h1 with h1 | h1 <;>
        simp [constLogicAndOp, reduce1_of_fullyZero _ h1, State.and3, padBit, toSig]
    · injection hr with hr1
      rw [← hr1]
      push_neg at h1
      have hra : reduce1 (asConst a) = .S1 :=
        reduce1_of_def_nonzero a h2.1 h1.1
      rcases b with _ | ⟨bit, rest⟩
      · simp at h2
      · rcases rest with _ | ⟨c, cs⟩
        · cases bit with
          | const st =>
            cases st with
            | S0 => exact absurd (by decide) h1.2
            | S1 =>
              have hb1 : reduce1 (asConst [SigBit.const .S1]) = .S1 := by decide
              simp [constLogicAndOp, hra, hb1, State.and3, padBit, toSig]
            | Sx =>
              have hb1 : reduce1 (asConst [SigBit.const .Sx]) = .Sx := by decide
              simp [constLogicAndOp, hra, hb1, State.and3, padBit, toSig]
            | Sz => simp [noZ] at hzb
          | wire w o => simp [fullyConst, SigBit.isWire] at hb
        · simp at h2
    · injection hr with hr1
      rw [← hr1]
      push_neg at h1
      have hrb : reduce1 (asConst b) = .S1 :=
        reduce1_of_def_nonzero b h3.1 h1.2
      rcases a with _ | ⟨bit, rest⟩
      · simp at h3
      · rcases rest with _ | ⟨c, cs⟩
        · cases bit with
          | const st =>
            cases st with
            | S0 => exact absurd (by decide) h1.1
            | S1 =>
              have ha1 : reduce1 (asConst [SigBit.const .S1]) = .S1 := by decide
              simp [constLogicAndOp, hrb, ha1, State.and3, padBit, toSig]
            | Sx =>
              have ha1 : reduce1 (asConst [SigBit.const .Sx]) = .Sx := by decide
              simp [constLogicAndOp, hrb, ha1, State.and3, padBit, toSig]
            | Sz => simp [noZ] at hza
          | wire w o => simp [fullyConst, SigBit.isWire] at ha
        · simp at h3
  · intro hna hnb rr hr
    rw [Builder.LogicOr] at hr
    split_ifs at hr with h1 h2
    · injection hr with hr1
      rw [← hr1]
      rcases h1 with h1 | h1
      · simp [constLogicOrOp, reduce1_of_ones _ h1 hna, State.or3, padBit, toSig]
      · simp [constLogicOrOp, reduce1_of_ones _ h1 hnb, State.or3, padBit, toSig]
    · injection hr with hr1
      rw [← hr1]
      simp [constLogicOrOp, reduce1_of_fullyZero _ h2.1,
        reduce1_of_fullyZero _ h2.2, State.or3, padBit, toSig]

/-- Witness for C1 (amended) at concrete constants, through the `Sub`
clause. -/
theorem builderFold_matches_constFold_wit :
    Builder.Sub [SigBit.const .S1] [SigBit.const .S0] false =
      .val (toSig (constFoldB .sub (asConst [SigBit.const .S1])
        (asConst [SigBit.const .S0]) false false
        (max (List.length [SigBit.const .S1]) (List.length [SigBit.const .S0]) + 1))) :=
  (builderFold_matches_constFold [SigBit.const .S1] [SigBit.const .S0]
    false false 1 (by decide) (by decide)).1 (by decide)

theorem specTvCompare_eq_tvFinal (op : BiKind) (a b : SigSpec) (s1 s2 : Bool)
    (hna : a ≠ []) : specTvCompare op a b s1 s2 = tvFinal op a b s1 s2 := by
  have hw : max a.length b.length ≠ 0 := by
    have := List.length_pos.mpr hna
    omega
  obtain ⟨n, hn⟩ := Nat.exists_eq_succ_of_ne_zero hw
  have hpair :
      (if op = .gt ∨ op = .ge then
        (((List.range (max a.length b.length)).map (fun i => cmpBit b s2 i)).map
            convert).zip
          (((List.range (max a.length b.length)).map (fun i => cmpBit a s1 i)).map
            convert)
      else
        (((List.range (max a.length b.length)).map (fun i => cmpBit a s1 i)).map
            convert).zip
          (((List.range (max a.length b.length)).map (fun i => cmpBit b s2 i)).map
            convert)) =
      (List.range (max a.length b.length)).map
        (fun i => cmpLits op a b s1 s2 i) := by
    by_cases hsw : op = .gt ∨ op = .ge
    · simp only [if_pos hsw, List.map_map, List.zip_map']
      exact List.map_congr_left (fun i _ => by simp [cmpLits, hsw])
    · simp only [if_neg hsw, List.map_map, List.zip_map']
      exact List.map_congr_left (fun i _ => by simp [cmpLits, hsw])
  have hdrop : ∀ (l : List (Int × Int)) (x : Int × Int), (l ++ [x]).dropLast = l := by
    intro l x
    simp
  have hlast : ∀ (l : List (Int × Int)) (x : Int × Int),
      (l ++ [x]).getLast? = some x := by
    intro l x
    simp
  rw [specTvCompare]
  simp only [hpair]
  rw [hn, List.range_succ, List.map_append, List.map_cons, List.map_nil,
    hdrop, hlast]
  rw [tvFinal, tvCarryChain, hn]
  simp only [Nat.succ_sub_one, List.foldl_map]

theorem biopTail_cmp (op : BiKind) (a b : SigSpec) (yw : Nat)
    (hop : isCmp op = true) : Builder.biopTail op a b yw = .cell := by
  cases op <;> try simp [isCmp] at hop
  all_goals rw [Builder.biopTail, if_neg (by simp), if_neg (by simp)]

/-- Claim C5 (amended): for `Biop` with a comparison operator and
non-empty operands that are not both fully-constant signals, the result
is governed by the three-valued algebra over per-bit literals with
sign- or zero-extension of the shorter operand: a definitely-false
final literal yields the all-zero constant of the output width, a
definitely-true one yields constant one zero-extended to the output
width, and an indefinite one falls through to emit the comparator
cell. (The claim as stated excludes only fully-*defined* constant
pairs; fully-constant pairs containing `x`/`z` take the constant fold
instead, per the counterexample.) -/
theorem biop_cmp_threeValued (op : BiKind) (a b : SigSpec) (s1 s2 : Bool)
    (yw : Nat) (hop : isCmp op = true) (hna : a ≠ []) (hnb : b ≠ [])
    (hc : ¬ (fullyConst a = true ∧ fullyConst b = true)) :
    Builder.Biop op a b s1 s2 yw =
      if specTvCompare op a b s1 s2 < 0 then
        .val (List.replicate yw (SigBit.const .S0))
      else if 0 < specTvCompare op a b s1 s2 then
        .val (extendSig [SigBit.const .S1] yw false)
      else .cell := by
  rw [Builder.Biop, if_neg hc, if_pos ⟨hop, hna, hnb⟩,
    biopTail_cmp op a b yw hop, specTvCompare_eq_tvFinal op a b s1 s2 hna]

/-- Witness for C5 (amended): a one-bit wire compared with constant one
has an indefinite three-valued outcome and emits the comparator cell. -/
theorem biop_cmp_threeValued_wit :
    Builder.Biop .lt [SigBit.wire 0 0] [SigBit.const .S1] false false 1 =
      .cell := by
  have h := biop_cmp_threeValued .lt [SigBit.wire 0 0] [SigBit.const .S1]
    false false 1 (by decide) (by decide) (by decide) (by decide)
  rw [h]
  decide

/-- Counterexample for C5 as stated: with both operands the constant
`1'bx` — not both fully-defined, so the claim places them on the
three-valued path, whose final literal is indefinite and would emit a
comparator cell — `Biop($le)` instead takes the fully-constant fold and
returns the constant `1'bx` without a cell. -/
theorem biop_cmp_constx_cex :
    Builder.Biop .le [SigBit.const .Sx] [SigBit.const .Sx] false false 1 =
      .val [SigBit.const .Sx] ∧
    ¬ (fullyDef [SigBit.const .Sx] = true ∧ fullyDef [SigBit.const .Sx] = true) ∧
    specTvCompare .le [SigBit.const .Sx] [SigBit.const .Sx] false false = 0 := by
  decide

theorem wireBits_length (id w : Nat) : (wireBits id w).length = w := by
  simp [wireBits]

theorem zip_mem_of_mem_left (c w : SigSpec) (hl : c.length = w.length)
    (b : SigBit) (hb : b ∈ c) : ∃ v, (b, v) ∈ c.zip w := by
  induction c generalizing w with
  | nil => simp at hb
  | cons x xs ih =>
    rcases w with _ | ⟨y, ys⟩
    · simp at hl
    · rcases List.mem_cons.mp hb with h1 | h1
      · exact ⟨y, by simp [h1]⟩
      · rcases ih ys (by simpa using hl) h1 with ⟨v, hv⟩
        exact ⟨v, List.mem_cons_of_mem _ hv⟩

theorem allocChunks_get_notMem (cs : List SigSpec) (m : Mod) (st : Subs)
    (b : SigBit) (hb : b ∉ cs.flatten) :
    subGet (allocChunks m st cs).2 b = subGet st b := by
  induction cs generalizing m st with
  | nil => rfl
  | cons c cs ih =>
    rw [List.flatten_cons] at hb
    have hb1 : b ∉ c := fun h => hb (List.mem_append.mpr (Or.inl h))
    have hb2 : b ∉ cs.flatten := fun h => hb (List.mem_append.mpr (Or.inr h))
    rw [allocChunks, ih _ _ hb2]
    apply setFold_notMem
    rw [List.map_fst_zip _ _ (by simp [wireBits_length])]
    exact hb1

theorem allocChunks_get_mem (cs : List SigSpec) (m : Mod) (st : Subs)
    (b : SigBit) (hnd : cs.flatten.Nodup) (hb : b ∈ cs.flatten) :
    (subGet (allocChunks m st cs).2 b).isSome = true := by
  induction cs generalizing m st with
  | nil => simp at hb
  | cons c cs ih =>
    rw [List.flatten_cons] at hb hnd
    rw [List.nodup_append] at hnd
    rw [allocChunks]
    rcases List.mem_append.mp hb with h1 | h1
    · have hfst : ((c.zip (wireBits (m.addWire c.length).2 c.length)).map
          Prod.fst) = c :=
        List.map_fst_zip _ _ (by simp [wireBits_length])
      rcases zip_mem_of_mem_left c (wireBits (m.addWire c.length).2 c.length)
        (by simp [wireBits_length]) b h1 with ⟨v, hv⟩
      have hnodup : ((c.zip (wireBits (m.addWire c.length).2 c.length)).map
          Prod.fst).Nodup := by
        rw [hfst]
        exact hnd.1
      rw [allocChunks_get_notMem _ _ _ _ (fun h => hnd.2.2 h1 h)]
      rw [setFold_mem _ _ _ _ hnodup hv]
      rfl
    · exact ih _ _ hnd.2.1 h1

/-- One `staging_signal` call: existing bindings survive unchanged, the
returned signal is the lvalue through the updated map, and every lvalue
bit ends up bound. -/
theorem stagingSignal_step (m : Mod) (st : Subs) (lv : SigSpec)
    (m1 : Mod) (st1 : Subs) (out : SigSpec)
    (h : stagingSignal m st lv = some (m1, st1, out)) :
    (∀ b v, subGet st b = some v → subGet st1 b = some v) ∧
    out = replaceSubs lv st1 ∧
    (∀ b ∈ lv, (subGet st1 b).isSome = true) := by
  rw [stagingSignal] at h
  split_ifs at h with hall
  rcases h0 : allocChunks m st
      (chunksOf (sortUnify (lv.filter (fun b => !(hasKey st b))))) with ⟨mm, ss⟩
  simp only [h0] at h
  rw [Option.some.injEq, Prod.mk.injEq, Prod.mk.injEq] at h
  obtain ⟨he1, he2, he3⟩ := h
  subst he1
  subst he2
  refine ⟨?_, he3.symm, ?_⟩
  · intro b v hv
    have hnb : b ∉ (chunksOf (sortUnify (lv.filter (fun b => !(hasKey st b))))).flatten := by
      rw [flatten_chunksOf, mem_sortUnify]
      intro hmem
      have hkb : hasKey st b = false := by
        simpa using (List.mem_filter.mp hmem).2
      have hks : hasKey st b = true :=
        (hasKey_iff_isSome st b).mpr (by simp [hv])
      rw [hks] at hkb
      exact absurd hkb (by simp)
    have := allocChunks_get_notMem _ m st b hnb
    rw [h0] at this
    simpa [hv] using this
  · intro b hb
    by_cases hk : hasKey st b = true
    · rcases (hasKey_iff_isSome st b).mp hk with hv
      rcases ho : subGet st b with _ | v
      · simp [ho] at hv
      · have hnb : b ∉ (chunksOf (sortUnify (lv.filter (fun b => !(hasKey st b))))).flatten := by
          rw [flatten_chunksOf, mem_sortUnify]
          intro hmem
          simp [hk] at hmem
        have := allocChunks_get_notMem _ m st b hnb
        rw [h0] at this
        simp [this, ho]
    · have hmem : b ∈ (chunksOf (sortUnify (lv.filter (fun b => !(hasKey st b))))).flatten := by
        rw [flatten_chunksOf, mem_sortUnify]
        exact List.mem_filter.mpr ⟨hb, by simp [hk]⟩
      have := allocChunks_get_mem _ m st b
        (by rw [flatten_chunksOf]; exact nodup_sortUnify _) hmem
      rw [h0] at this
      exact this

/-- Claim C10: over a whole procedure, the staging map only grows (each
original lvalue wire-bit is bound to a staging bit at most once), and
every `staging_signal` result equals its lvalue mapped through the
final staging map — so all actions emitted for a bit target the same
staging wire, and repeated calls return the same staging bits. -/
theorem stagingSignal_stable (m : Mod) (st : Subs) (lvs : List SigSpec)
    (mf : Mod) (stf : Subs) (outs : List SigSpec)
    (h : stagingRun m st lvs = some (mf, stf, outs)) :
    (∀ b v, subGet st b = some v → subGet stf b = some v) ∧
    (∀ j, j < lvs.length → outs.getD j [] = replaceSubs (lvs.getD j []) stf) ∧
    (∀ j, j < lvs.length → ∀ b, b ∈ lvs.getD j [] → (subGet stf b).isSome = true) := by
  induction lvs generalizing m st outs with
  | nil =>
    rw [stagingRun] at h
    injection h with h1
    injection h1 with h1 h2
    injection h2 with h2 h3
    subst h2 h3
    exact ⟨fun b v hv => hv, fun j hj => by simp at hj, fun j hj => by simp at hj⟩
  | cons lv rest ih =>
    rw [stagingRun] at h
    rcases h1 : stagingSignal m st lv with _ | ⟨m1, st1, out⟩
    · rw [h1] at h
      exact absurd h (by simp)
    · simp only [h1] at h
      rcases h2 : stagingRun m1 st1 rest with _ | ⟨m2, st2, outs2⟩
      · rw [h2] at h
        exact absurd h (by simp)
      · simp only [h2] at h
        rw [Option.some.injEq, Prod.mk.injEq, Prod.mk.injEq] at h
        obtain ⟨he1, he2, he3⟩ := h
        subst he1
        subst he2
        subst he3
        obtain ⟨hs1, hs2, hs3⟩ := stagingSignal_step m st lv m1 st1 out h1
        obtain ⟨hi1, hi2, hi3⟩ := ih m1 st1 outs2 h2
        refine ⟨fun b v hv => hi1 b v (hs1 b v hv), ?_, ?_⟩
        · intro j hj
          cases j with
          | zero =>
            simp only [List.getD_cons_zero]
            rw [hs2]
            apply replaceSubs_congr
            intro b hbmem
            rcases ho : subGet st1 b with _ | v
            · have := hs3 b hbmem
              simp [ho] at this
            · rw [subApply, subApply, ho, hi1 b v ho]
          | succ n =>
            simp only [List.getD_cons_succ]
            exact hi2 n (by simpa using hj)
        · intro j hj b hbmem
          cases j with
          | zero =>
            rw [List.getD_cons_zero] at hbmem
            have := hs3 b hbmem
            rcases ho : subGet st1 b with _ | v
            · simp [ho] at this
            · simp [hi1 b v ho]
          | succ n =>
            rw [List.getD_cons_succ] at hbmem
            exact hi3 n (by simpa using hj) b hbmem

/-- Witness for C10: the same lvalue staged twice returns the same
staging wire bit both times. -/
theorem stagingSignal_stable_wit :
    stagingRun ⟨[1], []⟩ [] [[SigBit.wire 0 0], [SigBit.wire 0 0]] =
      some (⟨[1, 1], []⟩, [(SigBit.wire 0 0, SigBit.wire 1 0)],
        [[SigBit.wire 1 0], [SigBit.wire 1 0]]) ∧
    [[SigBit.wire 1 0], [SigBit.wire 1 0]].getD 1 [] =
      replaceSubs ([[SigBit.wire 0 0], [SigBit.wire 0 0]].getD 1 [])
        [(SigBit.wire 0 0, SigBit.wire 1 0)] := by
  have hrun : stagingRun ⟨[1], []⟩ [] [[SigBit.wire 0 0], [SigBit.wire 0 0]] =
      some (⟨[1, 1], []⟩, [(SigBit.wire 0 0, SigBit.wire 1 0)],
        [[SigBit.wire 1 0], [SigBit.wire 1 0]]) := by decide
  exact ⟨hrun,
    (stagingSignal_stable _ _ _ _ _ _ hrun).2.1 1 (by decide)⟩

theorem hasKey_iff_mem_keys (σ : Subs) (b : SigBit) :
    hasKey σ b = true ↔ b ∈ subKeys σ := by
  induction σ with
  | nil => simp [hasKey, subKeys]
  | cons p rest ih =>
    rw [hasKey, subKeys, List.map_cons, List.mem_cons]
    by_cases hp : p.1 = b
    · simp [hp]
    · simp only [if_neg hp]
      rw [ih]
      constructor
      · exact Or.inr
      · rintro (h | h)
        · exact absurd h.symm hp
        · exact h

/-- Claim C8: after `staging_done`, every original wire-bit written to
staging gets, in every sync rule, an action committing its staging bit
into it, and, in the process root case, an action feeding it back into
its staging bit; bits never written to staging occur in neither family
of commit actions. -/
theorem stagingDone_commit (staging : Subs) (proc : ProcessR) (b : SigBit) :
    (hasKey staging b = true →
      (∀ s ∈ (stagingDone staging proc).syncs,
        ∃ acts ∈ s.actions, ∃ i, i < acts.1.length ∧
          acts.1.getD i (.const .Sx) = b ∧
          acts.2.getD i (.const .Sx) = subApply staging b) ∧
      (∃ acts ∈ (stagingDone staging proc).rootCase.actions, ∃ i,
        i < acts.1.length ∧
          acts.1.getD i (.const .Sx) = subApply staging b ∧
          acts.2.getD i (.const .Sx) = b)) ∧
    (hasKey staging b = false →
      (∀ p ∈ (stagingDoneActs staging).1, b ∉ p.1) ∧
      (∀ p ∈ (stagingDoneActs staging).2, b ∉ p.2)) := by
  constructor
  · intro hk
    have hdrv : b ∈ sortUnify (subKeys staging) :=
      (mem_sortUnify _ _).mpr ((hasKey_iff_mem_keys staging b).mp hk)
    have hfl : b ∈ (chunksOf (sortUnify (subKeys staging))).flatten := by
      rw [flatten_chunksOf]
      exact hdrv
    rcases List.mem_flatten.mp hfl with ⟨c, hc, hbc⟩
    rcases exists_getD_of_mem c b hbc (.const .Sx) with ⟨i, hi, hgd⟩
    constructor
    · intro s hs
      rw [stagingDone] at hs
      simp only [List.mem_map] at hs
      rcases hs with ⟨s0, _, rfl⟩
      refine ⟨(c, replaceSubs c staging), ?_, i, ?_, hgd, ?_⟩
      · simp only [stagingDoneActs]
        exact List.mem_append.mpr (Or.inr (List.mem_map.mpr ⟨c, hc, rfl⟩))
      · exact hi
      · rw [getD_replaceSubs c staging i hi, hgd]
    · refine ⟨(replaceSubs c staging, c), ?_, i, ?_, ?_, hgd⟩
      · rw [stagingDone]
        simp only [stagingDoneActs]
        exact List.mem_append.mpr (Or.inr (List.mem_map.mpr ⟨c, hc, rfl⟩))
      · rw [length_replaceSubs]
        exact hi
      · rw [getD_replaceSubs c staging i hi, hgd]
  · intro hk
    have hnd : b ∉ sortUnify (subKeys staging) := by
      rw [mem_sortUnify]
      intro hmem
      rw [← hasKey_iff_mem_keys] at hmem
      rw [hmem] at hk
      exact absurd hk (by simp)
    have hnc : ∀ c ∈ chunksOf (sortUnify (subKeys staging)), b ∉ c := by
      intro c hc hbc
      exact hnd (by
        rw [← flatten_chunksOf (sortUnify (subKeys staging))]
        exact List.mem_flatten.mpr ⟨c, hc, hbc⟩)
    constructor
    · intro p hp
      simp only [stagingDoneActs, List.mem_map] at hp
      rcases hp with ⟨c, hc, rfl⟩
      exact hnc c hc
    · intro p hp
      simp only [stagingDoneActs, List.mem_map] at hp
      rcases hp with ⟨c, hc, rfl⟩
      exact hnc c hc

/-- Witness for C8: a single staged bit produces the commit action pair
in the one sync rule and the root case. -/
theorem stagingDone_commit_wit :
    hasKey [(SigBit.wire 0 0, SigBit.wire 1 0)] (SigBit.wire 0 0) = true ∧
    ∀ s ∈ (stagingDone [(SigBit.wire 0 0, SigBit.wire 1 0)]
        { rootCase := ⟨[]⟩, syncs := [{ stype := .STa, signal := [], actions := [] }] }).syncs,
      ∃ acts ∈ s.actions, ∃ i, i < acts.1.length ∧
        acts.1.getD i (.const .Sx) = SigBit.wire 0 0 ∧
        acts.2.getD i (.const .Sx) =
          subApply [(SigBit.wire 0 0, SigBit.wire 1 0)] (SigBit.wire 0 0) :=
  ⟨by decide,
    ((stagingDone_commit [(SigBit.wire 0 0, SigBit.wire 1 0)]
      { rootCase := ⟨[]⟩, syncs := [{ stype := .STa, signal := [], actions := [] }] }
      (SigBit.wire 0 0)).1 (by decide)).1⟩

/-- Claim C4 (code bug): lowering a reduction-NAND of a two-bit wire
emits the `$reduce_and` cell and the `$logic_not` inverter, but the
signal handed back to the caller is the reduction cell's output wire
(wire 1), not the inverter's output wire (wire 2), which is left
dangling — the source never overwrites `ret` with the inverter output.
The spec's "negated reduce pairs" describes the evident intent. -/
theorem reduction_invert_dropped :
    evalRhs ⟨[2], []⟩ ⟨[], [], fun b => b⟩
        (.unary 1 .bitNand false (.namedNet 2 0)) =
      some (⟨[2, 1, 1],
        [⟨.unary .reduceAnd, [.wire 0 0, .wire 0 1], [], [], [.wire 1 0],
          false, false⟩,
         ⟨.unary .logicNot, [.wire 1 0], [], [], [.wire 2 0], false, false⟩]⟩,
        [SigBit.wire 1 0]) ∧
    ([SigBit.wire 1 0] : SigSpec) ≠ [SigBit.wire 2 0] :=
  ⟨rfl, by decide⟩

theorem getElem?_append_of_some (l ext : List Nat) (i w : Nat)
    (h : l[i]? = some w) : (l ++ ext)[i]? = some w := by
  have hi : i < l.length := by
    by_contra hno
    push_neg at hno
    rw [List.getElem?_eq_none hno] at h
    exact absurd h (by simp)
  rw [List.getElem?_append, if_pos hi]
  exact h

mutual

theorem wfExpr_mono : ∀ (m m2 : Mod) (cx : Ctx)
    (_ : ∀ (id w : Nat), m.wires[id]? = some w → m2.wires[id]? = some w) (e : Expr),
    wfExpr m cx e = true → wfExpr m2 cx e = true
  | _, _, _, _, .preConst _ _, h => h
  | m, m2, cx, hp, .namedNet w id, h => by
    rw [wfExpr] at h ⊢
    exact decide_eq_true (hp id w (of_decide_eq_true h))
  | _, _, _, _, .namedParam _ _, h => h
  | _, _, _, _, .namedFormal _ _, h => h
  | m, m2, cx, hp, .unary _ _ _ opnd, h => by
    rw [wfExpr] at h ⊢
    exact wfExpr_mono m m2 cx hp opnd h
  | m, m2, cx, hp, .binary _ _ _ _ l r, h => by
    rw [wfExpr, Bool.and_eq_true] at h ⊢
    exact ⟨wfExpr_mono m m2 cx hp l h.1, wfExpr_mono m m2 cx hp r h.2⟩
  | m, m2, cx, hp, .conversion _ _ _ opnd, h => by
    rw [wfExpr] at h ⊢
    exact wfExpr_mono m m2 cx hp opnd h
  | _, _, _, _, .intLit _ _, h => h
  | m, m2, cx, hp, .rangeSel rl rr rw0 value, h => by
    rw [wfExpr, Bool.and_eq_true] at h ⊢
    exact ⟨wfExpr_mono m m2 cx hp value h.1, h.2⟩
  | m, m2, cx, hp, .elemSel stride l r ss value sel, h => by
    rw [wfExpr, Bool.and_eq_true, Bool.and_eq_true] at h ⊢
    exact ⟨⟨wfExpr_mono m m2 cx hp value h.1.1,
      wfExpr_mono m m2 cx hp sel h.1.2⟩, h.2⟩
  | m, m2, cx, hp, .concat ops, h => by
    rw [wfExpr] at h ⊢
    exact wfList_mono m m2 cx hp ops h
  | m, m2, cx, hp, .cond c t f, h => by
    rw [wfExpr, Bool.and_eq_true, Bool.and_eq_true, Bool.and_eq_true] at h ⊢
    exact ⟨⟨⟨wfExpr_mono m m2 cx hp c h.1.1.1, wfExpr_mono m m2 cx hp t h.1.1.2⟩,
      wfExpr_mono m m2 cx hp f h.1.2⟩, h.2⟩
  | m, m2, cx, hp, .repl _ opnd, h => by
    rw [wfExpr] at h ⊢
    exact wfExpr_mono m m2 cx hp opnd h
  | m, m2, cx, hp, .member _ _ value, h => by
    rw [wfExpr, Bool.and_eq_true] at h ⊢
    exact ⟨wfExpr_mono m m2 cx hp value h.1, h.2⟩
  | m, m2, cx, hp, .callSigned opnd, h => by
    rw [wfExpr] at h ⊢
    exact wfExpr_mono m m2 cx hp opnd h
  | m, m2, cx, hp, .callFunc w rid args, h => by
    rw [wfExpr, Bool.and_eq_true] at h ⊢
    exact ⟨wfList_mono m m2 cx hp args h.1,
      decide_eq_true (hp rid w (of_decide_eq_true h.2))⟩

theorem wfList_mono : ∀ (m m2 : Mod) (cx : Ctx)
    (_ : ∀ (id w : Nat), m.wires[id]? = some w → m2.wires[id]? = some w)
    (ops : List Expr), wfList m cx ops = true → wfList m2 cx ops = true
  | _, _, _, _, [], h => h
  | m, m2, cx, hp, e :: rest, h => by
    rw [wfList, Bool.and_eq_true] at h ⊢
    exact ⟨wfExpr_mono m m2 cx hp e h.1, wfList_mono m m2 cx hp rest h.2⟩

end

theorem ext_trans {m1 m2 m3 : Mod} (h1 : ∃ e, m2.wires = m1.wires ++ e)
    (h2 : ∃ e, m3.wires = m2.wires ++ e) : ∃ e, m3.wires = m1.wires ++ e := by
  rcases h1 with ⟨e1, h1⟩
  rcases h2 with ⟨e2, h2⟩
  exact ⟨e1 ++ e2, by rw [h2, h1, List.append_assoc]⟩

theorem newCell_ext (m : Mod) (t : CellT) (a b s : SigSpec) (w : Nat)
    (as_ bs_ : Bool) :
    ∃ e, (m.newCell t a b s w as_ bs_).1.wires = m.wires ++ e := ⟨[w], rfl⟩

theorem newCell_snd (m : Mod) (t : CellT) (a b s : SigSpec) (w : Nat)
    (as_ bs_ : Bool) :
    (m.newCell t a b s w as_ bs_).2 = wireBits m.wires.length w := rfl

theorem length_extendSig (s : SigSpec) (len : Nat) (sg : Bool) :
    (extendSig s len sg).length = len := by
  rw [extendSig]
  by_cases h : len ≤ s.length
  · simp [h]
  · rw [if_neg h]
    push_neg at h
    simp
    omega

theorem flatten_replicate_length (n : Nat) (s : SigSpec) :
    ((List.replicate n s).flatten).length = n * s.length := by
  induction n with
  | zero => simp
  | succ k ih =>
    rw [List.replicate_succ, List.flatten_cons, List.length_append, ih]
    ring

theorem translateIndexE_extends (m : Mod) (idx0 : SigSpec) (s : Bool)
    (l r : Int) :
    ∃ e, (translateIndexE m idx0 s l r).1.wires = m.wires ++ e := by
  refine ⟨[1, 1, 1,
    max (if s = true then idx0 else idx0 ++ [SigBit.const .S0]).length 32], ?_⟩
  rw [translateIndexE]
  by_cases hc : r < l <;>
    simp [hc, Mod.newCell, Mod.addWire, Mod.addCell, List.append_assoc]

mutual

theorem evalW : ∀ (m : Mod) (cx : Ctx) (e : Expr) (p : Mod × SigSpec),
    evalRhs m cx e = some p →
    (∃ ext, p.1.wires = m.wires ++ ext) ∧
    (wfExpr m cx e = true → p.2.length = Expr.width e)
  | m, cx, .preConst w k, p, h => by
    rw [evalRhs] at h
    injection h with h1
    subst h1
    refine ⟨⟨[], by simp⟩, fun hw => ?_⟩
    rw [wfExpr] at hw
    simp [toSig, Expr.width, of_decide_eq_true hw]
  | m, cx, .namedNet w id, p, h => by
    rw [evalRhs] at h
    rcases hw : m.wires[id]? with _ | wd
    · rw [hw] at h
      exact absurd h (by simp)
    · rw [hw] at h
      injection h with h1
      subst h1
      refine ⟨⟨[], by simp⟩, fun hwf => ?_⟩
      rw [wfExpr] at hwf
      have := of_decide_eq_true hwf
      rw [hw] at this
      injection this with hww
      simp [length_replaceSubs, wireBits_length, Expr.width, hww]
  | m, cx, .namedParam w k, p, h => by
    rw [evalRhs] at h
    injection h with h1
    subst h1
    refine ⟨⟨[], by simp⟩, fun hw => ?_⟩
    rw [wfExpr] at hw
    simp [toSig, Expr.width, of_decide_eq_true hw]
  | m, cx, .namedFormal w idx, p, h => by
    rw [evalRhs] at h
    rcases ha : cx.args[idx]? with _ | s
    · rw [ha] at h
      exact absurd h (by simp)
    · rw [ha] at h
      injection h with h1
      subst h1
      refine ⟨⟨[], by simp⟩, fun hwf => ?_⟩
      rw [wfExpr] at hwf
      have := of_decide_eq_true hwf
      rw [ha] at this
      injection this with hww
  | m, cx, .unary w op os opnd, p, h => by
    rw [evalRhs] at h
    rcases he : evalRhs m cx opnd with _ | q1
    · rw [he] at h
      exact absurd h (by simp)
    · rcases q1 with ⟨m1, left⟩
      simp only [he] at h
      rcases hu : uopMap op with _ | ki
      · rw [hu] at h
        exact absurd h (by simp)
      · simp only [hu] at h
        have hx1 := (evalW m cx opnd (m1, left) he).1
        rcases ki with ⟨k, inv⟩
        cases inv with
        | true =>
          simp only [if_pos rfl] at h
          injection h with h1
          subst h1
          refine ⟨ext_trans hx1 (ext_trans (newCell_ext _ _ _ _ _ _ _ _)
            (newCell_ext _ _ _ _ _ _ _ _)), fun _ => ?_⟩
          simp [newCell_snd, wireBits_length, Expr.width]
        | false =>
          rw [if_neg (show ¬ (((k, false).2 : Bool) = true) by simp)] at h
          injection h with h1
          subst h1
          refine ⟨ext_trans hx1 (newCell_ext _ _ _ _ _ _ _ _), fun _ => ?_⟩
          simp [newCell_snd, wireBits_length, Expr.width]
  | m, cx, .binary w op ls rs l r, p, h => by
    rw [evalRhs] at h
    rcases he1 : evalRhs m cx l with _ | q1
    · rw [he1] at h
      exact absurd h (by simp)
    · rcases q1 with ⟨m1, left⟩
      simp only [he1] at h
      rcases he2 : evalRhs m1 cx r with _ | q2
      · rw [he2] at h
        exact absurd h (by simp)
      · rcases q2 with ⟨m2, right⟩
        simp only [he2] at h
        rcases hk : bopMap op with _ | k
        · rw [hk] at h
          exact absurd h (by simp)
        · simp only [hk] at h
          injection h with h1
          subst h1
          have hx1 := (evalW m cx l (m1, left) he1).1
          have hx2 := (evalW m1 cx r (m2, right) he2).1
          refine ⟨ext_trans hx1 (ext_trans hx2 (newCell_ext _ _ _ _ _ _ _ _)),
            fun _ => ?_⟩
          simp [newCell_snd, wireBits_length, Expr.width]
  | m, cx, .conversion toW fs ts opnd, p, h => by
    rw [evalRhs] at h
    rcases he : evalRhs m cx opnd with _ | q1
    · rw [he] at h
      exact absurd h (by simp)
    · rcases q1 with ⟨m1, s⟩
      simp only [he] at h
      split_ifs at h
      injection h with h1
      subst h1
      exact ⟨(evalW m cx opnd (m1, s) he).1,
        fun _ => by simp [length_extendSig, Expr.width]⟩
  | m, cx, .intLit w k, p, h => by
    rw [evalRhs] at h
    injection h with h1
    subst h1
    refine ⟨⟨[], by simp⟩, fun hw => ?_⟩
    rw [wfExpr] at hw
    simp [toSig, Expr.width, of_decide_eq_true hw]
  | m, cx, .rangeSel rl rr rw0 value, p, h => by
    rw [evalRhs] at h
    rcases he : evalRhs m cx value with _ | q1
    · rw [he] at h
      exact absurd h (by simp)
    · rcases q1 with ⟨m1, s⟩
      simp only [he] at h
      split_ifs at h with hc
      injection h with h1
      subst h1
      refine ⟨(evalW m cx value (m1, s) he).1, fun hwf => ?_⟩
      rw [wfExpr, Bool.and_eq_true] at hwf
      have hlen : s.length = Expr.width value :=
        (evalW m cx value (m1, s) he).2 hwf.1
      have hb := of_decide_eq_true hwf.2
      have hdvd : Expr.width value / rw0 * rw0 = Expr.width value :=
        Nat.div_mul_cancel (Nat.dvd_of_mod_eq_zero hc.2)
      have hmul : Expr.width value / rw0 * (rl - rr + 1) +
          rr * (Expr.width value / rw0) ≤ Expr.width value := by
        have he1 : Expr.width value / rw0 * (rl - rr + 1) +
            rr * (Expr.width value / rw0) =
            Expr.width value / rw0 * (rl + 1) := by
          have : rl - rr + 1 + rr = rl + 1 := by omega
          calc Expr.width value / rw0 * (rl - rr + 1) +
              rr * (Expr.width value / rw0)
              = Expr.width value / rw0 * (rl - rr + 1 + rr) := by ring
            _ = Expr.width value / rw0 * (rl + 1) := by rw [this]
        rw [he1]
        calc Expr.width value / rw0 * (rl + 1)
            ≤ Expr.width value / rw0 * rw0 :=
              Nat.mul_le_mul_left _ (by omega)
          _ = Expr.width value := hdvd
      simp only [List.length_take, List.length_drop, hlen, Expr.width]
      omega
  | m, cx, .elemSel stride l r ss value sel, p, h => by
    rw [evalRhs] at h
    rcases he1 : evalRhs m cx value with _ | q1
    · rw [he1] at h
      exact absurd h (by simp)
    · rcases q1 with ⟨m1, base⟩
      simp only [he1] at h
      split_ifs at h with hc
      rcases he2 : evalRhs m1 cx sel with _ | q2
      · rw [he2] at h
        exact absurd h (by simp)
      · rcases q2 with ⟨m2, idx0⟩
        simp only [he2] at h
        split_ifs at h with hb
        injection h with h1
        subst h1
        have hx1 := (evalW m cx value (m1, base) he1).1
        have hx2 := (evalW m1 cx sel (m2, idx0) he2).1
        refine ⟨ext_trans hx1 (ext_trans hx2 (ext_trans
          (translateIndexE_extends m2 idx0 ss l r)
          (ext_trans (newCell_ext _ _ _ _ _ _ _ _)
            (newCell_ext _ _ _ _ _ _ _ _)))), fun _ => ?_⟩
        simp [newCell_snd, wireBits_length, Expr.width]
  | m, cx, .concat ops, p, h => by
    rw [evalRhs] at h
    have := evalListW m cx [] ops p h
    exact ⟨this.1, fun hwf => by
      have h2 := this.2 (by rw [wfExpr] at hwf; exact hwf)
      simpa [Expr.width] using h2⟩
  | m, cx, .cond c t f, p, h => by
    rw [evalRhs] at h
    rcases he1 : evalRhs m cx f with _ | q1
    · rw [he1] at h
      exact absurd h (by simp)
    · rcases q1 with ⟨m1, fs⟩
      simp only [he1] at h
      rcases he2 : evalRhs m1 cx t with _ | q2
      · rw [he2] at h
        exact absurd h (by simp)
      · rcases q2 with ⟨m2, ts⟩
        simp only [he2] at h
        rcases he3 : evalRhs m2 cx c with _ | q3
        · rw [he3] at h
          exact absurd h (by simp)
        · rcases q3 with ⟨m3, cs⟩
          simp only [he3] at h
          injection h with h1
          subst h1
          have hx1 := (evalW m cx f (m1, fs) he1).1
          have hx2 := (evalW m1 cx t (m2, ts) he2).1
          have hx3 := (evalW m2 cx c (m3, cs) he3).1
          refine ⟨ext_trans hx1 (ext_trans hx2 (ext_trans hx3
            (ext_trans (newCell_ext _ _ _ _ _ _ _ _)
              (newCell_ext _ _ _ _ _ _ _ _)))), fun hwf => ?_⟩
          rw [wfExpr, Bool.and_eq_true, Bool.and_eq_true,
            Bool.and_eq_true] at hwf
          have hlf : fs.length = Expr.width f :=
            (evalW m cx f (m1, fs) he1).2 hwf.1.2
          simp [newCell_snd, wireBits_length, Expr.width, hlf]
  | m, cx, .repl count opnd, p, h => by
    rw [evalRhs] at h
    rcases he : evalRhs m cx opnd with _ | q1
    · rw [he] at h
      exact absurd h (by simp)
    · rcases q1 with ⟨m1, s⟩
      simp only [he] at h
      injection h with h1
      subst h1
      refine ⟨(evalW m cx opnd (m1, s) he).1, fun hwf => ?_⟩
      rw [wfExpr] at hwf
      have hls : s.length = Expr.width opnd :=
        (evalW m cx opnd (m1, s) he).2 hwf
      simp [flatten_replicate_length, hls, Expr.width]
  | m, cx, .member w off value, p, h => by
    rw [evalRhs] at h
    rcases he : evalRhs m cx value with _ | q1
    · rw [he] at h
      exact absurd h (by simp)
    · rcases q1 with ⟨m1, s⟩
      simp only [he] at h
      injection h with h1
      subst h1
      refine ⟨(evalW m cx value (m1, s) he).1, fun hwf => ?_⟩
      rw [wfExpr, Bool.and_eq_true] at hwf
      have hls : s.length = Expr.width value :=
        (evalW m cx value (m1, s) he).2 hwf.1
      have hb := of_decide_eq_true hwf.2
      simp only [List.length_take, List.length_drop, hls, Expr.width]
      omega
  | m, cx, .callSigned opnd, p, h => by
    rw [evalRhs] at h
    have := evalW m cx opnd p h
    exact ⟨this.1, fun hwf => by
      have h2 := this.2 (by rw [wfExpr] at hwf; exact hwf)
      simpa [Expr.width] using h2⟩
  | m, cx, .callFunc w rid args, p, h => by
    rw [evalRhs] at h
    rcases ha : evalArgs m cx args with _ | m1
    · rw [ha] at h
      exact absurd h (by simp)
    · simp only [ha] at h
      rcases hw : m1.wires[rid]? with _ | wd
      · rw [hw] at h
        exact absurd h (by simp)
      · rw [hw] at h
        injection h with h1
        subst h1
        rcases evalArgsW m cx args m1 ha with ⟨ext1, hext1⟩
        refine ⟨⟨ext1, hext1⟩, fun hwf => ?_⟩
        rw [wfExpr, Bool.and_eq_true] at hwf
        have hm : m1.wires[rid]? = some w := by
          rw [hext1]
          exact getElem?_append_of_some _ _ _ _ (of_decide_eq_true hwf.2)
        rw [hw] at hm
        injection hm with hww
        simp [wireBits_length, Expr.width, hww]

theorem evalListW : ∀ (m : Mod) (cx : Ctx) (acc : SigSpec) (ops : List Expr)
    (p : Mod × SigSpec), evalList m cx acc ops = some p →
    (∃ ext, p.1.wires = m.wires ++ ext) ∧
    (wfList m cx ops = true → p.2.length = acc.length + widthList ops)
  | m, cx, acc, [], p, h => by
    rw [evalList] at h
    injection h with h1
    subst h1
    exact ⟨⟨[], by simp⟩, fun _ => by simp [widthList]⟩
  | m, cx, acc, e :: rest, p, h => by
    rw [evalList] at h
    rcases he : evalRhs m cx e with _ | q1
    · rw [he] at h
      exact absurd h (by simp)
    · rcases q1 with ⟨m1, s⟩
      simp only [he] at h
      have hx1 := evalW m cx e (m1, s) he
      have hx2 := evalListW m1 cx (s ++ acc) rest p h
      rcases hx1.1 with ⟨e1, he1⟩
      refine ⟨ext_trans ⟨e1, he1⟩ hx2.1, fun hwf => ?_⟩
      rw [wfList, Bool.and_eq_true] at hwf
      have hrest : wfList m1 cx rest = true :=
        wfList_mono m m1 cx
          (fun id w hmm => by
            rw [he1]
            exact getElem?_append_of_some _ _ _ _ hmm) rest hwf.2
      have hl2 := hx2.2 hrest
      have hls : s.length = Expr.width e := hx1.2 hwf.1
      rw [hl2, widthList]
      simp [hls]
      omega

theorem evalArgsW : ∀ (m : Mod) (cx : Ctx) (args : List Expr) (m2 : Mod),
    evalArgs m cx args = some m2 → ∃ ext, m2.wires = m.wires ++ ext
  | m, cx, [], m2, h => by
    rw [evalArgs] at h
    injection h with h1
    subst h1
    exact ⟨[], by simp⟩
  | m, cx, e :: rest, m2, h => by
    rw [evalArgs] at h
    rcases he : evalRhs m cx e with _ | q1
    · rw [he] at h
      exact absurd h (by simp)
    · rcases q1 with ⟨m1, s⟩
      simp only [he] at h
      exact ext_trans (evalW m cx e (m1, s) he).1 (evalArgsW m1 cx rest m2 h)

end

/-- Claim C3: for every supported expression with a fixed-size,
type-consistent AST (the `wfExpr` facts slang's checker guarantees),
the signal `evaluate_rhs` returns has width exactly the type's
bitstream width — so the width assertion at the end of `evaluate_rhs`
can never fail, on any lowering path, including unary reductions,
conversions, concatenations, replications, element selects and calls
(the embedding returns the computed signal without the assertion, and
this theorem shows the asserted equality always holds). -/
theorem evaluate_rhs_width_correct (m : Mod) (cx : Ctx) (e : Expr)
    (mf : Mod) (s : SigSpec) (h : evalRhs m cx e = some (mf, s))
    (hwf : wfExpr m cx e = true) : s.length = Expr.width e :=
  (evalW m cx e (mf, s) h).2 hwf

/-- Witness for C3: a concatenation of a reduction over a two-bit wire
and a signed conversion of a literal evaluates to a signal of the
type's width. -/
theorem evaluate_rhs_width_correct_wit :
    wfExpr (⟨[2], []⟩ : Mod) ⟨[], [], fun b => b⟩
        (.concat [.unary 1 .bitAnd false (.namedNet 2 0),
          .conversion 3 true true (.intLit 2 [.S1, .S0])]) = true ∧
    evalRhs (⟨[2], []⟩ : Mod) ⟨[], [], fun b => b⟩
        (.concat [.unary 1 .bitAnd false (.namedNet 2 0),
          .conversion 3 true true (.intLit 2 [.S1, .S0])]) =
      some (⟨[2, 1],
        [⟨.unary .reduceAnd, [.wire 0 0, .wire 0 1], [], [], [.wire 1 0],
          false, false⟩]⟩,
        [.const .S1, .const .S0, .const .S0, .wire 1 0]) ∧
    ([SigBit.const .S1, .const .S0, .const .S0, .wire 1 0] : SigSpec).length =
      Expr.width (.concat [.unary 1 .bitAnd false (.namedNet 2 0),
        .conversion 3 true true (.intLit 2 [.S1, .S0])]) :=
  ⟨by decide, rfl,
    evaluate_rhs_width_correct (⟨[2], []⟩ : Mod) ⟨[], [], fun b => b⟩
      (.concat [.unary 1 .bitAnd false (.namedNet 2 0),
        .conversion 3 true true (.intLit 2 [.S1, .S0])])
      (⟨[2, 1],
        [⟨.unary .reduceAnd, [.wire 0 0, .wire 0 1], [], [], [.wire 1 0],
          false, false⟩]⟩)
      [.const .S1, .const .S0, .const .S0, .wire 1 0] rfl (by decide)⟩

theorem wireBits_mem (v : SigBit) (id n : Nat) (h : v ∈ wireBits id n) :
    ∃ off, v = .wire id off := by
  rcases List.mem_map.mp h with ⟨off, _, rfl⟩
  exact ⟨off, rfl⟩

theorem replaceSubs_eq_of_zip : ∀ (c w : SigSpec) (σ : Subs),
    c.length = w.length → (∀ p ∈ c.zip w, subGet σ p.1 = some p.2) →
    replaceSubs c σ = w
  | [], [], _, _, _ => rfl
  | [], y :: ys, _, h, _ => by simp at h
  | x :: xs, [], _, h, _ => by simp at h
  | x :: xs, y :: ys, σ, h, hp => by
    rw [replaceSubs, List.map_cons]
    have hx : subGet σ x = some y := hp (x, y) (by simp [List.zip_cons_cons])
    rw [show subApply σ x = y by rw [subApply, hx]; rfl]
    have := replaceSubs_eq_of_zip xs ys σ (by simpa using h)
      (fun p hpmem => hp p (by simp [List.zip_cons_cons, hpmem]))
    rw [replaceSubs] at this
    rw [this]

theorem finishChunks_spec : ∀ (cs : List SigSpec) (m : Mod) (σ : Subs),
    (cs.flatten).Nodup →
    (∃ ext, (finishChunks m σ cs).1.wires = m.wires ++ ext) ∧
    (∀ b, b ∉ cs.flatten →
      subGet (finishChunks m σ cs).2.1 b = subGet σ b) ∧
    (∀ b, b ∈ cs.flatten → ∃ wid off,
      subGet (finishChunks m σ cs).2.1 b = some (.wire wid off) ∧
      m.wires.length ≤ wid) ∧
    (((finishChunks m σ cs).2.2.map Prod.snd).flatten =
      replaceSubs cs.flatten σ) ∧
    (((finishChunks m σ cs).2.2.map Prod.fst).flatten =
      replaceSubs cs.flatten (finishChunks m σ cs).2.1)
  | [], m, σ, _ => by
    refine ⟨⟨[], by simp [finishChunks]⟩, fun b _ => rfl,
      fun b hb => by simp at hb, rfl, rfl⟩
  | c :: cs, m, σ, hnd => by
    rw [List.flatten_cons, List.nodup_append] at hnd
    obtain ⟨hndc, hndcs, hdisj⟩ := hnd
    have hzfst : ((c.zip (wireBits (m.addWire c.length).2 c.length)).map
        Prod.fst) = c :=
      List.map_fst_zip _ _ (by simp [wireBits_length])
    have hF1 : ∀ b, b ∉ c →
        subGet ((c.zip (wireBits (m.addWire c.length).2 c.length)).foldl
          (fun s q => subSet s q.1 q.2) σ) b = subGet σ b := by
      intro b hb
      apply setFold_notMem
      rw [hzfst]
      exact hb
    have hnodup : ((c.zip (wireBits (m.addWire c.length).2 c.length)).map
        Prod.fst).Nodup := by
      rw [hzfst]
      exact hndc
    have hF2 : ∀ p ∈ c.zip (wireBits (m.addWire c.length).2 c.length),
        subGet ((c.zip (wireBits (m.addWire c.length).2 c.length)).foldl
          (fun s q => subSet s q.1 q.2) σ) p.1 = some p.2 := by
      intro p hp
      exact setFold_mem _ _ _ _ hnodup hp
    have IH := finishChunks_spec cs (m.addWire c.length).1
      ((c.zip (wireBits (m.addWire c.length).2 c.length)).foldl
        (fun s q => subSet s q.1 q.2) σ) hndcs
    simp only [finishChunks]
    refine ⟨?_, ?_, ?_, ?_, ?_⟩
    · exact ext_trans ⟨[c.length], rfl⟩ IH.1
    · intro b hb
      rw [List.flatten_cons, List.mem_append] at hb
      push_neg at hb
      rw [IH.2.1 b hb.2]
      exact hF1 b hb.1
    · intro b hb
      rw [List.flatten_cons, List.mem_append] at hb
      rcases hb with hb | hb
      · rcases zip_mem_of_mem_left c (wireBits (m.addWire c.length).2 c.length)
          (by simp [wireBits_length]) b hb with ⟨v, hv⟩
        have hvw : v ∈ wireBits (m.addWire c.length).2 c.length :=
          (List.of_mem_zip hv).2
        rcases wireBits_mem v _ _ hvw with ⟨off, rfl⟩
        refine ⟨(m.addWire c.length).2, off, ?_, le_refl _⟩
        rw [IH.2.1 b (fun hmem => hdisj hb hmem)]
        exact hF2 (b, .wire (m.addWire c.length).2 off) hv
      · rcases IH.2.2.1 b hb with ⟨wid, off, hw1, hw2⟩
        refine ⟨wid, off, hw1, ?_⟩
        have hw3 : (m.addWire c.length).1.wires.length = m.wires.length + 1 := by
          simp [Mod.addWire]
        omega
    · rw [List.map_cons, List.flatten_cons, List.flatten_cons,
        replaceSubs_append, IH.2.2.2.1]
      have hcong : replaceSubs cs.flatten
          ((c.zip (wireBits (m.addWire c.length).2 c.length)).foldl
            (fun s q => subSet s q.1 q.2) σ) = replaceSubs cs.flatten σ :=
        replaceSubs_congr _ _ _ (fun b hb => by
          rw [subApply, subApply, hF1 b (fun hmem => hdisj hmem hb)])
      rw [hcong]
    · rw [List.map_cons, List.flatten_cons, List.flatten_cons,
        replaceSubs_append, IH.2.2.2.2]
      have hw : replaceSubs c (finishChunks (m.addWire c.length).1
          ((c.zip (wireBits (m.addWire c.length).2 c.length)).foldl
            (fun s q => subSet s q.1 q.2) σ) cs).2.1 =
          wireBits (m.addWire c.length).2 c.length := by
        apply replaceSubs_eq_of_zip _ _ _ (by simp [wireBits_length])
        intro p hp
        rw [IH.2.1 p.1 (fun hmem => hdisj (List.of_mem_zip hp).1 hmem)]
        exact hF2 p hp
      rw [hw]

theorem branchActs_flatten : ∀ (σf : Subs) (cs : List SigSpec) (src : SigSpec),
    src.length = (cs.flatten).length →
    ((branchActs σf cs src).map Prod.fst).flatten =
      replaceSubs cs.flatten σf ∧
    ((branchActs σf cs src).map Prod.snd).flatten = src
  | σf, [], src, h => by
    rw [List.flatten_nil, List.length_nil, List.length_eq_zero] at h
    subst h
    exact ⟨rfl, rfl⟩
  | σf, c :: cs, src, h => by
    rw [List.flatten_cons, List.length_append] at h
    have hlen : (src.drop c.length).length = (cs.flatten).length := by
      rw [List.length_drop]
      omega
    have IH := branchActs_flatten σf cs (src.drop c.length) hlen
    rw [branchActs]
    constructor
    · rw [List.map_cons, List.flatten_cons, List.flatten_cons,
        replaceSubs_append, IH.1]
    · rw [List.map_cons, List.flatten_cons, IH.2, List.take_append_drop]

theorem sbFold_spec : ∀ (bodies : List (Subs → Subs)) (st : SwitchSt),
    bodies.foldl (fun p f => sbBranch p.1 p.2 f []) (st, st.save) =
      ({ save := st.save,
         branches := st.branches ++ bodies.map (fun f =>
           (⟨[]⟩, (branchUpdateOf st.save (f st.save),
             replaceSubs (branchUpdateOf st.save (f st.save)) (f st.save)))) },
       st.save)
  | [], st => by simp
  | f :: rest, st => by
    rw [List.foldl_cons]
    have hstep : sbBranch st st.save f [] =
        ({ save := st.save,
           branches := st.branches ++
             [(⟨[]⟩, (branchUpdateOf st.save (f st.save),
               replaceSubs (branchUpdateOf st.save (f st.save)) (f st.save)))] },
         st.save) := rfl
    rw [hstep]
    have IH := sbFold_spec rest
      { save := st.save,
        branches := st.branches ++
          [(⟨[]⟩, (branchUpdateOf st.save (f st.save),
            replaceSubs (branchUpdateOf st.save (f st.save)) (f st.save)))] }
    simp only at IH
    rw [IH]
    simp [List.append_assoc]

theorem mem_branchUpdate (save cur : Subs) (hnd : (cur.map Prod.fst).Nodup)
    (b : SigBit) :
    b ∈ branchUpdateOf save cur ↔
      ∃ v, subGet cur b = some v ∧ ¬ subGet save b = some v := by
  rw [branchUpdateOf, mem_sortBits]
  constructor
  · intro h
    rcases List.mem_map.mp h with ⟨p, hp, rfl⟩
    have hf := List.mem_filter.mp hp
    exact ⟨p.2, mem_subGet cur hnd p.1 p.2 hf.1, of_decide_eq_true hf.2⟩
  · rintro ⟨v, hv, hne⟩
    apply List.mem_map.mpr
    refine ⟨(b, v), List.mem_filter.mpr ⟨subGet_mem cur b v hv, ?_⟩, rfl⟩
    exact decide_eq_true hne

theorem getD_map_general {α β : Type} (f : α → β) (l : List α) (i : Nat)
    (h : i < l.length) (d : α) (df : β) :
    (l.map f).getD i df = f (l.getD i d) := by
  induction l generalizing i with
  | nil => simp at h
  | cons x xs ih =>
    cases i with
    | zero => rfl
    | succ n =>
      simp only [List.map_cons, List.getD_cons_succ]
      exact ih n (by simpa using h)

theorem sbRun_eq (m : Mod) (σ0 : Subs) (bodies : List (Subs → Subs)) :
    sbRun m σ0 bodies =
      sbFinish m
        { save := σ0,
          branches := bodies.map (fun f =>
            (⟨[]⟩, (branchUpdateOf σ0 (f σ0),
              replaceSubs (branchUpdateOf σ0 (f σ0)) (f σ0)))) } σ0 := by
  have h : bodies.foldl (fun p f => sbBranch p.1 p.2 f [])
      ({ save := σ0, branches := [] }, σ0) =
      ({ save := σ0, branches := bodies.map (fun f =>
          (⟨[]⟩, (branchUpdateOf σ0 (f σ0),
            replaceSubs (branchUpdateOf σ0 (f σ0)) (f σ0)))) }, σ0) := by
    have h0 := sbFold_spec bodies { save := σ0, branches := [] }
    simpa using h0
  simp only [sbRun, h]

/-- Claim C7: for a whole switch lowering over branch bodies (each
abstracted as its effect on the substitution map, with unique keys):
each branch's update set is exactly the keys whose binding differs from
the snapshot taken at construction; every bit in the unified update
signal ends up substituted by a freshly allocated wire bit while all
other bits keep their old binding; the parent case's appended default
actions assign, bit for bit, each union bit's pre-branch substituted
value to its fresh wire; and each branch's case rule receives actions
assigning the branch's new values onto the same fresh wires. -/
theorem switchBuilder_semantics (m : Mod) (σ0 : Subs)
    (bodies : List (Subs → Subs))
    (hb : ∀ j, j < bodies.length →
      (((bodies.getD j id) σ0).map Prod.fst).Nodup) :
    (∀ j, j < bodies.length → ∀ b,
      (b ∈ branchUpdateOf σ0 ((bodies.getD j id) σ0) ↔
        ∃ v, subGet ((bodies.getD j id) σ0) b = some v ∧
          ¬ subGet σ0 b = some v)) ∧
    (∀ b, b ∈ sortUnify ((bodies.map
        (fun f => branchUpdateOf σ0 (f σ0))).flatten) →
      ∃ wid off, subGet (sbRun m σ0 bodies).2.1 b = some (.wire wid off) ∧
        m.wires.length ≤ wid) ∧
    (∀ b, b ∉ sortUnify ((bodies.map
        (fun f => branchUpdateOf σ0 (f σ0))).flatten) →
      subGet (sbRun m σ0 bodies).2.1 b = subGet σ0 b) ∧
    (((sbRun m σ0 bodies).2.2.1.map Prod.fst).flatten =
      replaceSubs (sortUnify ((bodies.map
        (fun f => branchUpdateOf σ0 (f σ0))).flatten))
        (sbRun m σ0 bodies).2.1) ∧
    (((sbRun m σ0 bodies).2.2.1.map Prod.snd).flatten =
      replaceSubs (sortUnify ((bodies.map
        (fun f => branchUpdateOf σ0 (f σ0))).flatten)) σ0) ∧
    (sbRun m σ0 bodies).2.2.2.length = bodies.length ∧
    (∀ j, j < bodies.length →
      (((sbRun m σ0 bodies).2.2.2.getD j ⟨[]⟩).actions.map
          Prod.fst).flatten =
        replaceSubs (branchUpdateOf σ0 ((bodies.getD j id) σ0))
          (sbRun m σ0 bodies).2.1 ∧
      (((sbRun m σ0 bodies).2.2.2.getD j ⟨[]⟩).actions.map
          Prod.snd).flatten =
        replaceSubs (branchUpdateOf σ0 ((bodies.getD j id) σ0))
          ((bodies.getD j id) σ0)) := by
  have hbr : (bodies.map (fun f =>
      ((⟨[]⟩ : CaseR), (branchUpdateOf σ0 (f σ0),
        replaceSubs (branchUpdateOf σ0 (f σ0)) (f σ0))))).map
      (fun br => br.2.1) =
      bodies.map (fun f => branchUpdateOf σ0 (f σ0)) := by
    rw [List.map_map]
    rfl
  have hU : ((chunksOf (sortUnify ((bodies.map
      (fun f => branchUpdateOf σ0 (f σ0))).flatten))).flatten).Nodup := by
    rw [flatten_chunksOf]
    exact nodup_sortUnify _
  have FC := finishChunks_spec
    (chunksOf (sortUnify ((bodies.map
      (fun f => branchUpdateOf σ0 (f σ0))).flatten))) m σ0 hU
  rw [flatten_chunksOf] at FC
  have hA : sbRun m σ0 bodies =
      ((finishChunks m σ0 (chunksOf (sortUnify ((bodies.map
        (fun f => branchUpdateOf σ0 (f σ0))).flatten)))).1,
       (finishChunks m σ0 (chunksOf (sortUnify ((bodies.map
        (fun f => branchUpdateOf σ0 (f σ0))).flatten)))).2.1,
       (finishChunks m σ0 (chunksOf (sortUnify ((bodies.map
        (fun f => branchUpdateOf σ0 (f σ0))).flatten)))).2.2,
       (bodies.map (fun f =>
        ((⟨[]⟩ : CaseR), (branchUpdateOf σ0 (f σ0),
          replaceSubs (branchUpdateOf σ0 (f σ0)) (f σ0))))).map
        (fun br => (⟨br.1.actions ++ branchActs
          (finishChunks m σ0 (chunksOf (sortUnify ((bodies.map
            (fun f => branchUpdateOf σ0 (f σ0))).flatten)))).2.1
          (chunksOf br.2.1) br.2.2⟩ : CaseR))) := by
    rw [sbRun_eq, sbFinish]
    simp only [hbr]
  refine ⟨?_, ?_, ?_, ?_, ?_, ?_, ?_⟩
  · intro j hj b
    exact mem_branchUpdate σ0 _ (hb j hj) b
  · intro b hbU
    rw [hA]
    exact FC.2.2.1 b hbU
  · intro b hbU
    rw [hA]
    exact FC.2.1 b hbU
  · rw [hA]
    exact FC.2.2.2.2
  · rw [hA]
    exact FC.2.2.2.1
  · rw [hA]
    simp
  · intro j hj
    rw [hA]
    have hget : ((bodies.map (fun f =>
        ((⟨[]⟩ : CaseR), (branchUpdateOf σ0 (f σ0),
          replaceSubs (branchUpdateOf σ0 (f σ0)) (f σ0))))).map
        (fun br => (⟨br.1.actions ++ branchActs
          (finishChunks m σ0 (chunksOf (sortUnify ((bodies.map
            (fun f => branchUpdateOf σ0 (f σ0))).flatten)))).2.1
          (chunksOf br.2.1) br.2.2⟩ : CaseR))).getD j ⟨[]⟩ =
        ⟨branchActs
          (finishChunks m σ0 (chunksOf (sortUnify ((bodies.map
            (fun f => branchUpdateOf σ0 (f σ0))).flatten)))).2.1
          (chunksOf (branchUpdateOf σ0 ((bodies.getD j id) σ0)))
          (replaceSubs (branchUpdateOf σ0 ((bodies.getD j id) σ0))
            ((bodies.getD j id) σ0))⟩ := by
      rw [List.map_map]
      rw [getD_map_general _ bodies j hj id]
      simp
    rw [hget]
    have hlen : (replaceSubs (branchUpdateOf σ0 ((bodies.getD j id) σ0))
        ((bodies.getD j id) σ0)).length =
        ((chunksOf (branchUpdateOf σ0 ((bodies.getD j id) σ0))).flatten).length := by
      rw [flatten_chunksOf, length_replaceSubs]
    have hBA := branchActs_flatten
      (finishChunks m σ0 (chunksOf (sortUnify ((bodies.map
        (fun f => branchUpdateOf σ0 (f σ0))).flatten)))).2.1
      (chunksOf (branchUpdateOf σ0 ((bodies.getD j id) σ0)))
      (replaceSubs (branchUpdateOf σ0 ((bodies.getD j id) σ0))
        ((bodies.getD j id) σ0)) hlen
    rw [flatten_chunksOf] at hBA
    exact ⟨hBA.1, hBA.2⟩

/-- Witness for C7: one branch that rebinds one bit yields one fresh
staging wire, a parent default action restoring the pre-branch value,
and a branch action carrying the branch's new value. -/
theorem switchBuilder_semantics_wit :
    sbRun ⟨[1], []⟩ []
        [fun σ => subSet σ (SigBit.wire 0 0) (SigBit.wire 5 0)] =
      (⟨[1, 1], []⟩, [(SigBit.wire 0 0, SigBit.wire 1 0)],
        [([SigBit.wire 1 0], [SigBit.wire 0 0])],
        [⟨[([SigBit.wire 1 0], [SigBit.wire 5 0])]⟩]) ∧
    ((sbRun ⟨[1], []⟩ []
        [fun σ => subSet σ (SigBit.wire 0 0) (SigBit.wire 5 0)]).2.2.1.map
        Prod.snd).flatten =
      replaceSubs
        (sortUnify ((([fun σ => subSet σ (SigBit.wire 0 0) (SigBit.wire 5 0)]
          : List (Subs → Subs)).map
          (fun f => branchUpdateOf [] (f []))).flatten)) [] := by
  constructor
  · decide
  · exact (switchBuilder_semantics ⟨[1], []⟩ []
      [fun σ => subSet σ (SigBit.wire 0 0) (SigBit.wire 5 0)]
      (by
        intro j hj
        simp only [List.length_cons, List.length_nil] at hj
        have hj0 : j = 0 := by omega
        subst hj0
        decide)).2.2.2.2.1

end YS
